import Mathlib

/-!
Verification of the `faststringmap` byte-trie library.

The library stores a read-only map from strings to values of a type `T` as a
trie of `byteValue` nodes held in one flat array (`Map.store`).  Construction
(`NewMap` / `build` / `makeByteValue`) sorts the keys and recursively
partitions them by the byte at the current depth; lookup walks the array one
query byte at a time; `AppendSortedKeys` enumerates the keys in sorted order;
`NewMapFaster` derives an equivalent pointer-based view (`MapFaster`).

Modelling conventions used throughout this file:
* A Go string is modelled as its byte sequence, `List Nat`, each byte `< 256`.
  Byte arithmetic from the source (`byte` wrap-around) is written with
  explicit `% 256`.
* Go's zero value for `T` is `default` from an `[Inhabited T]` instance.
* A Go panic (out-of-range slice index) is modelled by returning `none`;
  functions that can panic return `Option`.  General recursion of the Go
  functions is modelled with an explicit fuel argument; exhausted fuel also
  yields `none`, and the concrete fuel passed by the entry points is proved
  sufficient by the theorems conditioned on a `some` result.
* The source `Source` interface (`AppendKeys`/`Get`) is modelled as a list of
  keys together with a value function.
-/

namespace FastStringMap

/-- Keys are byte strings: each Go string is its list of bytes. -/
abbrev Key : Type := List Nat

/-- Go string comparison `<` (byte-wise lexicographic, a proper prefix is
smaller), as used by `sort.Slice`/`sort.Strings` during construction. -/
def lexLt : Key → Key → Bool
  | [], [] => false
  | [], _ :: _ => true
  | _ :: _, [] => false
  | x :: xs, y :: ys => x < y || (x == y && lexLt xs ys)

/-- Node of the flat store: translation of the Go struct `byteValue`.
`nextLo` is `uint32` in the source and `nextLen`/`nextOffset` are `byte`;
they are modelled as `Nat` with wrap-around made explicit (`% 256`) at each
arithmetic operation performed by the source. -/
structure byteValue (T : Type) where
  nextLo : Nat
  nextLen : Nat
  nextOffset : Nat
  valid : Bool
  value : T
  deriving DecidableEq, Repr

/-- A freshly allocated (zero-valued) `byteValue`, as produced by Go's `make`. -/
def defaultBV [Inhabited T] : byteValue T := ⟨0, 0, 0, false, default⟩

@[simp] theorem byteValue.nextLo_mk {T : Type} (nlo nlen noff : Nat) (vb : Bool) (vv : T) :
    (⟨nlo, nlen, noff, vb, vv⟩ : byteValue T).nextLo = nlo := rfl

@[simp] theorem byteValue.nextLen_mk {T : Type} (nlo nlen noff : Nat) (vb : Bool) (vv : T) :
    (⟨nlo, nlen, noff, vb, vv⟩ : byteValue T).nextLen = nlen := rfl

@[simp] theorem byteValue.nextOffset_mk {T : Type} (nlo nlen noff : Nat) (vb : Bool) (vv : T) :
    (⟨nlo, nlen, noff, vb, vv⟩ : byteValue T).nextOffset = noff := rfl

@[simp] theorem byteValue.valid_mk {T : Type} (nlo nlen noff : Nat) (vb : Bool) (vv : T) :
    (⟨nlo, nlen, noff, vb, vv⟩ : byteValue T).valid = vb := rfl

@[simp] theorem byteValue.value_mk {T : Type} (nlo nlen noff : Nat) (vb : Bool) (vv : T) :
    (⟨nlo, nlen, noff, vb, vv⟩ : byteValue T).value = vv := rfl

/-- The serialisable flat-array map (Go type `Map`, also `Uint32Store`). -/
structure Map (T : Type) where
  store : List (byteValue T)
  deriving DecidableEq, Repr

/-- Model of the Go `Source` interface: the keys it enumerates (`AppendKeys`)
and the value function (`Get`). -/
structure Source (T : Type) where
  keys : List Key
  get : Key → T

/-- The `nextLen` computation of `makeByteValue`:
`a[len(a)-1][byteIndex] - bv.nextOffset + 1` in Go `byte` arithmetic. -/
def nextLenOf (lo hi : Nat) : Nat := ((hi + 256 - lo) % 256 + 1) % 256

/-- Maximal runs of adjacent keys sharing the byte at index `d`: the partition
computed by the `iSameByteHi` scan inside `makeByteValue`. -/
def groupRuns (d : Nat) : List Key → List (List Key)
  | [] => []
  | k :: tl =>
    (k :: tl.takeWhile (fun x => x[d]? == k[d]?)) ::
      groupRuns d (tl.dropWhile (fun x => x[d]? == k[d]?))
termination_by l => l.length
decreasing_by
  simp only [List.length_cons]
  have := List.Sublist.length_le (List.dropWhile_sublist (fun x => x[d]? == k[d]?) (l := tl))
  omega

/-- The per-run loop at the bottom of `makeByteValue`: for each maximal run of
keys sharing byte `b` at the current index, recurse (via `f`) into the child
slot `nextLo + (b - nextOffset)` (Go `byte` subtraction, then `uint32` add). -/
def buildRuns (f : List (byteValue T) → Nat → List Key → Option (List (byteValue T)))
    (nextLo off d : Nat) :
    List (byteValue T) → List (List Key) → Option (List (byteValue T))
  | store, [] => some store
  | store, run :: rs =>
    match run with
    | [] => none
    | k :: _ =>
      match k[d]? with
      | none => none
      | some b =>
        match f store (nextLo + (b + 256 - off) % 256) run with
        | none => none
        | some store₁ => buildRuns f nextLo off d store₁ rs

/-- Translation of `makeByteValue` (the recursive construction step, identical
in `Uint32Store.makeByteValue` and the generic `builder.makeByteValue`):
initialise the node at `idx` for the sorted key slice `a` considering bytes at
index `d`.  The node is addressed by its index in the growing store; fresh
child slots are appended at the end of the store, which is exactly where both
Go allocation strategies place them (see `builderAlloc_spec` for the
block-based allocator of the generic version). -/
def makeByteValue [Inhabited T] (get : Key → T) :
    Nat → List (byteValue T) → Nat → List Key → Nat → Option (List (byteValue T))
  | 0, _, _, _, _ => none
  | fuel + 1, store, idx, a, d =>
    match store[idx]? with
    | none => none
    | some bv0 =>
      match a with
      | [] => none
      | k0 :: tl =>
        let bv1 := if k0.length = d then { bv0 with valid := true, value := get k0 } else bv0
        let a' := if k0.length = d then tl else k0 :: tl
        match a' with
        | [] => some (store.set idx bv1)
        | k1 :: t1 =>
          match k1[d]?, ((k1 :: t1).getLast (List.cons_ne_nil k1 t1))[d]? with
          | some lo, some hi =>
            buildRuns (fun st i ks => makeByteValue get fuel st i ks (d + 1))
              store.length lo d
              (store.set idx
                  { bv1 with nextOffset := lo, nextLen := nextLenOf lo hi, nextLo := store.length } ++
                List.replicate (nextLenOf lo hi) defaultBV)
              (groupRuns d (k1 :: t1))
          | _, _ => none

/-- Translation of `build`: run `makeByteValue` on a store holding one fresh
root node.  The fuel bounds the recursion depth (which is at most the longest
key plus one); as for any modelled panic, insufficient fuel yields `none`. -/
def build [Inhabited T] (get : Key → T) (keys : List Key) : Option (List (byteValue T)) :=
  makeByteValue get (1 + (keys.map List.length).sum) [defaultBV] 0 keys 0

/-- The sort order used by construction: `keys[i] < keys[j]` on Go strings,
made reflexive for sorting. -/
def keyLe (x y : Key) : Prop := lexLt x y = true ∨ x = y

instance : DecidableRel keyLe := fun x y => by unfold keyLe; infer_instance

/-- The key sort performed by `NewMap` (`sort.Slice` with Go string `<`). -/
def sortKeys (l : List Key) : List Key := List.insertionSort keyLe l

/-- Translation of `NewMap` / `NewUint32Store`: an empty source yields the
single-node store, otherwise the keys are sorted and `build` runs. -/
def NewMap [Inhabited T] (src : Source T) : Option (Map T) :=
  match src.keys with
  | [] => some ⟨[defaultBV]⟩
  | _ :: _ => (build src.get (sortKeys src.keys)).map Map.mk

/-- The byte-by-byte walk of `Map.LookupString`, with the current node kept as
an index into the store (`bv := &m.store[...]` in the source). -/
def lookupStringFrom [Inhabited T] (store : List (byteValue T)) : Nat → List Nat → Option (T × Bool)
  | i, s =>
    match store[i]? with
    | none => none
    | some bv =>
      match s with
      | [] => some (bv.value, bv.valid)
      | b :: rest =>
        if b < bv.nextOffset then some (default, false)
        else if bv.nextLen ≤ b - bv.nextOffset then some (default, false)
        else lookupStringFrom store (bv.nextLo + (b - bv.nextOffset)) rest

/-- Translation of `Map.LookupString` (same code as `Uint32Store.LookupString`). -/
def Map.LookupString [Inhabited T] (m : Map T) (s : List Nat) : Option (T × Bool) :=
  lookupStringFrom m.store 0 s

/-- The byte-by-byte walk of `Map.LookupBytes`; the source duplicates the loop
of `LookupString` verbatim for `[]byte`, and so does the model. -/
def lookupBytesFrom [Inhabited T] (store : List (byteValue T)) : Nat → List Nat → Option (T × Bool)
  | i, s =>
    match store[i]? with
    | none => none
    | some bv =>
      match s with
      | [] => some (bv.value, bv.valid)
      | b :: rest =>
        if b < bv.nextOffset then some (default, false)
        else if bv.nextLen ≤ b - bv.nextOffset then some (default, false)
        else lookupBytesFrom store (bv.nextLo + (b - bv.nextOffset)) rest

/-- Translation of `Map.LookupBytes` (same code as `Uint32Store.LookupBytes`). -/
def Map.LookupBytes [Inhabited T] (m : Map T) (s : List Nat) : Option (T × Bool) :=
  lookupBytesFrom m.store 0 s

/-- The `for i := byte(0); i < bv.nextLen; i++` loop of `appendKeysFrom`:
`n` children remain, `j` is the current child offset; the emitted byte is
`nextOffset + i` in Go `byte` arithmetic. -/
def appendKidsFrom (f : Nat → List Nat → List Key → Option (List Key))
    (nextLo off : Nat) (pfx : List Nat) : Nat → Nat → List Key → Option (List Key)
  | 0, _, acc => some acc
  | n + 1, j, acc =>
    match f (nextLo + j) (pfx ++ [(off + j) % 256]) acc with
    | none => none
    | some acc₁ => appendKidsFrom f nextLo off pfx n (j + 1) acc₁

/-- Translation of `Map.appendKeysFrom`: emit the accumulated prefix if the
node is terminal, then recurse into each reserved child slot in increasing
byte order.  Fuel bounds the recursion depth. -/
def appendKeysFrom [Inhabited T] (store : List (byteValue T)) :
    Nat → Nat → List Nat → List Key → Option (List Key)
  | 0, _, _, _ => none
  | fuel + 1, i, pfx, acc =>
    match store[i]? with
    | none => none
    | some bv =>
      appendKidsFrom (appendKeysFrom store fuel) bv.nextLo bv.nextOffset pfx bv.nextLen 0
        (if bv.valid then acc ++ [pfx] else acc)

/-- Translation of `Map.AppendSortedKeys`.  The store length bounds the depth
of the trie (each step moves to a strictly larger index), so it is a
sufficient fuel for every store produced by construction. -/
def Map.AppendSortedKeys [Inhabited T] (m : Map T) (a : List Key) : Option (List Key) :=
  appendKeysFrom m.store m.store.length 0 [] a

/-- Node of the derived pointer view (Go struct `byteValueSlice`): the child
range is held as a direct list of child nodes instead of an index. -/
inductive byteValueSlice (T : Type) where
  | mk : List (byteValueSlice T) → Nat → Bool → T → byteValueSlice T

/-- Child slice of a derived node (field `next` of `byteValueSlice`). -/
def byteValueSlice.next : byteValueSlice T → List (byteValueSlice T)
  | ⟨n, _, _, _⟩ => n

/-- Field `nextOffset` of `byteValueSlice`. -/
def byteValueSlice.nextOffset : byteValueSlice T → Nat
  | ⟨_, o, _, _⟩ => o

/-- Field `valid` of `byteValueSlice`. -/
def byteValueSlice.valid : byteValueSlice T → Bool
  | ⟨_, _, v, _⟩ => v

/-- Field `value` of `byteValueSlice`. -/
def byteValueSlice.value : byteValueSlice T → T
  | ⟨_, _, _, v⟩ => v

/-- The pointer-based map (Go type `MapFaster`). -/
structure MapFaster (T : Type) where
  store : List (byteValueSlice T)

/-- The derived node at index `i`: the node written by `NewMapFaster`, with
its `next` slice `m.store[sv.nextLo : sv.nextLo+uint32(sv.nextLen)]` of the
derived array unfolded into the child nodes it contains.  The Go code ties
this knot by aliasing sub-slices of the one derived array; the model unfolds
the aliasing recursively, with fuel bounding the depth (on the index-monotone
stores produced by construction, `store.length` is always enough fuel, see
`deriveNode_fuel_eq`). -/
def deriveNode [Inhabited T] (store : List (byteValue T)) : Nat → Nat → byteValueSlice T
  | 0, _ => ⟨[], 0, false, default⟩
  | fuel + 1, i =>
    match store[i]? with
    | none => ⟨[], 0, false, default⟩
    | some bv =>
      ⟨(List.range bv.nextLen).map (fun j => deriveNode store fuel (bv.nextLo + j)),
        bv.nextOffset, bv.valid, bv.value⟩

/-- Translation of `NewMapFaster`: one derived array of the same length,
each entry copying `nextOffset`/`valid`/`value` and referring to its children
inside the derived array itself. -/
def NewMapFaster [Inhabited T] (m : Map T) : MapFaster T :=
  ⟨(List.range m.store.length).map (fun i => deriveNode m.store m.store.length i)⟩

/-- The walk of `MapFaster.LookupString`: as in the source, the bound checked
is the length of the `next` slice. -/
def lookupFasterString [Inhabited T] : byteValueSlice T → List Nat → Option (T × Bool)
  | bv, [] => some (bv.value, bv.valid)
  | bv, b :: rest =>
    if b < bv.nextOffset then some (default, false)
    else if h : bv.next.length ≤ b - bv.nextOffset then some (default, false)
    else lookupFasterString (bv.next.get ⟨b - bv.nextOffset, by omega⟩) rest

/-- Translation of `MapFaster.LookupString`. -/
def MapFaster.LookupString [Inhabited T] (m : MapFaster T) (s : List Nat) : Option (T × Bool) :=
  match m.store[0]? with
  | none => none
  | some bv => lookupFasterString bv s

/-- The walk of `MapFaster.LookupBytes` (verbatim duplicate in the source). -/
def lookupFasterBytes [Inhabited T] : byteValueSlice T → List Nat → Option (T × Bool)
  | bv, [] => some (bv.value, bv.valid)
  | bv, b :: rest =>
    if b < bv.nextOffset then some (default, false)
    else if h : bv.next.length ≤ b - bv.nextOffset then some (default, false)
    else lookupFasterBytes (bv.next.get ⟨b - bv.nextOffset, by omega⟩) rest

/-- Translation of `MapFaster.LookupBytes`. -/
def MapFaster.LookupBytes [Inhabited T] (m : MapFaster T) (s : List Nat) : Option (T × Bool) :=
  match m.store[0]? with
  | none => none
  | some bv => lookupFasterBytes bv s

/-! ### The block allocator of the generic builder -/

/-- One allocation block of the generic builder: a Go slice with its length
(`data`) and capacity. -/
structure BVBlock (T : Type) where
  data : List (byteValue T)
  cap : Nat

/-- The single array obtained by concatenating all blocks at the end of
`build` ("copy all blocks to one slice"). -/
def flattenBlocks (all : List (BVBlock T)) : List (byteValue T) :=
  (all.map BVBlock.data).flatten

/-- Constant `maxBuildBufSize` of the source. -/
def maxBuildBufSize : Nat := 1 <<< 20

/-- The `for newCap < n { newCap *= 2 }` loop of `builder.alloc`.  The Go loop
would diverge from `newCap = 0`, which is unreachable because block capacities
are positive; the model returns `0` there instead. -/
def growCapLoop (n c : Nat) : Nat :=
  if h : 0 < c ∧ c < n then growCapLoop n (c * 2) else c
termination_by n - c
decreasing_by omega

/-- The `firstBufSize` loop of the source (`size := 1 << 4`, doubling while
below the map size and the ceiling). -/
def firstBufSizeLoop (mapSize size : Nat) : Nat :=
  if h : 0 < size ∧ size < mapSize ∧ size < maxBuildBufSize then
    firstBufSizeLoop mapSize (size * 2)
  else size
termination_by mapSize - size
decreasing_by omega

/-- Translation of `firstBufSize`. -/
def firstBufSize (mapSize : Nat) : Nat := firstBufSizeLoop mapSize 16

/-- The initial builder state set up by `build`: one block holding the root
node, and running length 1. -/
def builderInit [Inhabited T] (nKeys : Nat) : List (BVBlock T) × Nat :=
  ([⟨[defaultBV], firstBufSize nKeys⟩], 1)

/-- Translation of `builder.alloc`: reserve `n` fresh slots in the current
block if its spare capacity suffices, otherwise start a new block; the running
length `b.len` grows by `n` either way.  Go reads `b.all[len(b.all)-1]`, which
panics on an empty block list (never produced by the builder); the model
returns `none` there. -/
def builderAlloc [Inhabited T] (all : List (BVBlock T)) (len n : Nat) :
    Option (List (BVBlock T) × Nat) :=
  match all.getLast? with
  | none => none
  | some cur =>
    if n ≤ cur.cap - cur.data.length then
      some (all.dropLast ++ [⟨cur.data ++ List.replicate n defaultBV, cur.cap⟩], len + n)
    else
      some (all ++
        [⟨List.replicate n defaultBV,
          if maxBuildBufSize < growCapLoop n (cur.cap * 2) then maxBuildBufSize
          else growCapLoop n (cur.cap * 2)⟩], len + n)

/-! ### Invariants -/

/-- Well-formedness of one node with respect to a store length: the whole
reserved child range is in bounds, and children live at strictly larger
indices than their parent. -/
def NodeOK (len i : Nat) (bv : byteValue T) : Prop :=
  bv.nextLo + bv.nextLen ≤ len ∧ (0 < bv.nextLen → i < bv.nextLo)

/-- Well-formedness of a whole store. -/
def StoreOK (store : List (byteValue T)) : Prop :=
  ∀ i bv, store[i]? = some bv → NodeOK store.length i bv

/-- The index region a call of `makeByteValue` may touch: its own node `idx`
plus everything appended at or beyond the entry length `lo` (up to the exit
length `hi`). -/
def Region (idx lo hi j : Nat) : Prop := j = idx ∨ (lo ≤ j ∧ j < hi)

/-- Postcondition bundle of `makeByteValue store idx a d = some store'`,
stated robustly against any later store `t` that agrees with `store'` on the
call's region. -/
structure BuildPost [Inhabited T] (get : Key → T) (store store' : List (byteValue T))
    (idx : Nat) (a : List Key) (d : Nat) : Prop where
  mono : store.length ≤ store'.length
  frame : ∀ j, j ≠ idx → j < store.length → store'[j]? = store[j]?
  grow : ∀ k ∈ a, store.length + (k.length - d) ≤ store'.length
  nodeok : (∀ j bv, store[j]? = some bv → NodeOK store.length j bv) →
    ∀ j bv, store'[j]? = some bv → NodeOK store'.length j bv
  lookA : ∀ t : List (byteValue T),
    (∀ j, Region idx store.length store'.length j → t[j]? = store'[j]?) →
    ∀ k ∈ a, lookupStringFrom t idx (k.drop d) = some (get k, true)
  lookB : ∀ t : List (byteValue T),
    (∀ j, Region idx store.length store'.length j → t[j]? = store'[j]?) →
    ∀ bs, (∀ k ∈ a, k.drop d ≠ bs) → lookupStringFrom t idx bs = some (default, false)
  enum : ∀ t : List (byteValue T),
    (∀ j, Region idx store.length store'.length j → t[j]? = store'[j]?) →
    ∀ fuel₂ pfx acc, (∀ k ∈ a, k.length - d < fuel₂) →
      appendKeysFrom t fuel₂ idx pfx acc = some (acc ++ a.map (fun k => pfx ++ k.drop d))

/-! ### Order lemmas for the Go string comparison -/

@[simp] theorem lexLt_nil_nil : lexLt [] [] = false := rfl

@[simp] theorem lexLt_nil_cons {y : Nat} {ys : Key} : lexLt [] (y :: ys) = true := rfl

@[simp] theorem lexLt_cons_nil {x : Nat} {xs : Key} : lexLt (x :: xs) [] = false := rfl

theorem lexLt_cons_iff {x y : Nat} {xs ys : Key} :
    lexLt (x :: xs) (y :: ys) = true ↔ x < y ∨ (x = y ∧ lexLt xs ys = true) := by
  simp [lexLt]

theorem lexLt_nil_iff {y : Key} : lexLt [] y = true ↔ y ≠ [] := by
  cases y <;> simp

theorem lexLt_irrefl : ∀ x : Key, lexLt x x = false
  | [] => rfl
  | x :: xs => by
    have := lexLt_irrefl xs
    simp [lexLt, this]

theorem lexLt_trans : ∀ x y z : Key, lexLt x y = true → lexLt y z = true → lexLt x z = true
  | [], [], _, h, _ => by simp at h
  | [], _ :: _, [], _, h => by simp at h
  | [], _ :: _, _ :: _, _, _ => rfl
  | _ :: _, [], _, h, _ => by simp at h
  | _ :: _, _ :: _, [], _, h => by simp at h
  | x :: xs, y :: ys, z :: zs, h1, h2 => by
    rw [lexLt_cons_iff] at h1 h2 ⊢
    rcases h1 with h1 | ⟨rfl, h1⟩
    · rcases h2 with h2 | ⟨rfl, h2⟩
      · exact Or.inl (Nat.lt_trans h1 h2)
      · exact Or.inl h1
    · rcases h2 with h2 | ⟨rfl, h2⟩
      · exact Or.inl h2
      · exact Or.inr ⟨rfl, lexLt_trans xs ys zs h1 h2⟩

theorem lexLt_total : ∀ x y : Key, lexLt x y = true ∨ lexLt y x = true ∨ x = y
  | [], [] => Or.inr (Or.inr rfl)
  | [], _ :: _ => Or.inl rfl
  | _ :: _, [] => Or.inr (Or.inl rfl)
  | x :: xs, y :: ys => by
    rcases Nat.lt_trichotomy x y with h | rfl | h
    · exact Or.inl (lexLt_cons_iff.mpr (Or.inl h))
    · rcases lexLt_total xs ys with h | h | rfl
      · exact Or.inl (lexLt_cons_iff.mpr (Or.inr ⟨rfl, h⟩))
      · exact Or.inr (Or.inl (lexLt_cons_iff.mpr (Or.inr ⟨rfl, h⟩)))
      · exact Or.inr (Or.inr rfl)
    · exact Or.inr (Or.inl (lexLt_cons_iff.mpr (Or.inl h)))

theorem lexLt_asymm {x y : Key} (h : lexLt x y = true) : lexLt y x = false := by
  by_contra hc
  have h2 : lexLt y x = true := by
    cases h3 : lexLt y x
    · exact absurd h3 hc
    · rfl
  have := lexLt_trans x y x h h2
  rw [lexLt_irrefl] at this
  exact Bool.false_ne_true this

instance : IsTotal Key keyLe :=
  ⟨fun x y => by
    rcases lexLt_total x y with h | h | rfl
    · exact Or.inl (Or.inl h)
    · exact Or.inr (Or.inl h)
    · exact Or.inl (Or.inr rfl)⟩

instance : IsTrans Key keyLe :=
  ⟨fun x y z hxy hyz => by
    rcases hxy with hxy | rfl
    · rcases hyz with hyz | rfl
      · exact Or.inl (lexLt_trans x y z hxy hyz)
      · exact Or.inl hxy
    · exact hyz⟩

theorem sortKeys_perm (l : List Key) : (sortKeys l).Perm l :=
  List.perm_insertionSort keyLe l

theorem sortKeys_sorted (l : List Key) : List.Pairwise keyLe (sortKeys l) :=
  List.sorted_insertionSort keyLe l

theorem sortKeys_pairwise_lexLt {l : List Key} (h : l.Nodup) :
    List.Pairwise (fun x y => lexLt x y = true) (sortKeys l) := by
  have hnd : (sortKeys l).Nodup := (sortKeys_perm l).nodup_iff.mpr h
  have := (sortKeys_sorted l).and hnd
  exact this.imp (fun hab => by
    rcases hab with ⟨hle | rfl, hne⟩
    · exact hle
    · exact absurd rfl hne)

/-! ### Small arithmetic and unfolding lemmas -/

theorem byteSub_eq {lo b : Nat} (h1 : lo ≤ b) (h2 : b < 256) :
    (b + 256 - lo) % 256 = b - lo := by omega

theorem nextLenOf_eq {lo hi : Nat} (h1 : lo ≤ hi) (h2 : hi < 256) :
    nextLenOf lo hi = (hi - lo + 1) % 256 := by
  unfold nextLenOf
  omega

theorem lookupStringFrom_none [Inhabited T] {store : List (byteValue T)} {i : Nat}
    (h : store[i]? = none) (s : List Nat) : lookupStringFrom store i s = none := by
  cases s <;> rw [lookupStringFrom] <;> rw [h]

theorem lookupStringFrom_nil [Inhabited T] {store : List (byteValue T)} {i : Nat}
    {bv : byteValue T} (h : store[i]? = some bv) :
    lookupStringFrom store i [] = some (bv.value, bv.valid) := by
  rw [lookupStringFrom, h]

theorem lookupStringFrom_cons [Inhabited T] {store : List (byteValue T)} {i : Nat}
    {bv : byteValue T} (h : store[i]? = some bv) (b : Nat) (rest : List Nat) :
    lookupStringFrom store i (b :: rest) =
      if b < bv.nextOffset then some (default, false)
      else if bv.nextLen ≤ b - bv.nextOffset then some (default, false)
      else lookupStringFrom store (bv.nextLo + (b - bv.nextOffset)) rest := by
  rw [lookupStringFrom, h]

theorem lookupStringFrom_default [Inhabited T] {store : List (byteValue T)} {i : Nat}
    (h : store[i]? = some defaultBV) (s : List Nat) :
    lookupStringFrom store i s = some ((default : T), false) := by
  cases s with
  | nil => rw [lookupStringFrom_nil h]; rfl
  | cons b rest =>
    rw [lookupStringFrom_cons h]
    simp [defaultBV]

theorem lookupBytesFrom_eq_string [Inhabited T] (store : List (byteValue T)) :
    ∀ (s : List Nat) (i : Nat), lookupBytesFrom store i s = lookupStringFrom store i s := by
  intro s
  induction s with
  | nil => intro i; rw [lookupBytesFrom, lookupStringFrom]
  | cons b rest ih =>
    intro i
    rw [lookupBytesFrom, lookupStringFrom]
    cases h : store[i]? with
    | none => rfl
    | some bv => simp only [ih]

theorem appendKeysFrom_default [Inhabited T] {store : List (byteValue T)} {i : Nat}
    (h : store[i]? = some defaultBV) (fuel : Nat) (pfx : List Nat) (acc : List Key) :
    appendKeysFrom store (fuel + 1) i pfx acc = some acc := by
  rw [appendKeysFrom, h]
  simp [defaultBV, appendKidsFrom]

theorem makeByteValue_oob [Inhabited T] {get : Key → T} {fuel : Nat}
    {store : List (byteValue T)} {idx : Nat} {a : List Key} {d : Nat}
    (h : store[idx]? = none) : makeByteValue get fuel store idx a d = none := by
  cases fuel with
  | zero => rfl
  | succ fuel => rw [makeByteValue, h]

theorem buildRuns_cons_inv {T : Type} {f : List (byteValue T) → Nat → List Key → Option (List (byteValue T))}
    {nextLo off d : Nat} {store store' : List (byteValue T)} {run : List Key} {rs : List (List Key)}
    (h : buildRuns f nextLo off d store (run :: rs) = some store') :
    ∃ k ks, run = k :: ks ∧ ∃ b, k[d]? = some b ∧
      ∃ store₁, f store (nextLo + (b + 256 - off) % 256) (k :: ks) = some store₁ ∧
        buildRuns f nextLo off d store₁ rs = some store' := by
  cases run with
  | nil => rw [buildRuns.eq_def] at h; simp at h
  | cons k ks =>
    rw [buildRuns.eq_def] at h
    refine ⟨k, ks, rfl, ?_⟩
    simp only [] at h
    cases hb : k[d]? with
    | none => rw [hb] at h; simp at h
    | some b =>
      rw [hb] at h
      simp only [] at h
      refine ⟨b, rfl, ?_⟩
      cases hf : f store (nextLo + (b + 256 - off) % 256) (k :: ks) with
      | none => rw [hf] at h; simp at h
      | some store₁ =>
        rw [hf] at h
        exact ⟨store₁, rfl, h⟩

/-- The byte of `k` at index `d` determines how `k.drop d` starts. -/
theorem drop_eq_byte_cons {k : Key} {d b : Nat} (h : k[d]? = some b) :
    k.drop d = b :: k.drop (d + 1) := by
  have hlt : d < k.length := by
    by_contra hc
    rw [List.getElem?_eq_none (by omega)] at h
    exact Option.noConfusion h
  rw [List.drop_eq_getElem_cons hlt]
  have : k[d] = b := by
    have := List.getElem?_eq_getElem hlt
    rw [h] at this
    exact (Option.some_inj.mp this.symm)
  rw [this]

theorem lexLt_drop_byte_le {x y : Key} {d bx byy : Nat}
    (hx : x[d]? = some bx) (hy : y[d]? = some byy)
    (h : lexLt (x.drop d) (y.drop d) = true) : bx ≤ byy := by
  rw [drop_eq_byte_cons hx, drop_eq_byte_cons hy, lexLt_cons_iff] at h
  rcases h with h | ⟨rfl, _⟩
  · omega
  · exact Nat.le_refl _

theorem lexLt_cons_same {x : Nat} {xs ys : Key} :
    lexLt (x :: xs) (x :: ys) = lexLt xs ys := by
  simp [lexLt]

/-- A key whose byte at `d` exists has a nonempty suffix there, and membership
in the later suffix embeds into the earlier one. -/
theorem mem_drop_succ_mem_drop {k : Key} {d b x : Nat} (h : k[d]? = some b)
    (hx : x ∈ k.drop (d + 1)) : x ∈ k.drop d := by
  rw [drop_eq_byte_cons h]
  exact List.mem_cons_of_mem _ hx

/-- Every element of a strictly sorted nonempty list is the last element or
below it. -/
theorem pairwise_lexLt_getLast {a : List Key} {R : Key → Key → Prop}
    (hs : List.Pairwise R a) (hne : a ≠ []) :
    ∀ k ∈ a, k = a.getLast hne ∨ R k (a.getLast hne) := by
  intro k hk
  rw [List.getLast_eq_getElem]
  obtain ⟨i, hi, rfl⟩ := List.mem_iff_getElem.mp hk
  rcases Nat.lt_or_ge i (a.length - 1) with hlt | hge
  · exact Or.inr (List.pairwise_iff_getElem.mp hs i (a.length - 1) hi (by omega) hlt)
  · left
    congr 1
    omega

/-- Region touched by a `buildRuns` loop: the child slots of the remaining
keys plus everything appended beyond the entry length. -/
def RunsRegion (nextLo off : Nat) (rem : List Key) (d lo hi j : Nat) : Prop :=
  (∃ k ∈ rem, ∃ b, k[d]? = some b ∧ j = nextLo + (b - off)) ∨ (lo ≤ j ∧ j < hi)

/-- Postcondition bundle of the `buildRuns` loop over the runs of `rem`. -/
structure RunsPost [Inhabited T] (get : Key → T) (store store' : List (byteValue T))
    (nextLo off : Nat) (rem : List Key) (d : Nat) : Prop where
  mono : store.length ≤ store'.length
  frame : ∀ j, j < store.length →
    (∀ k ∈ rem, ∀ b, k[d]? = some b → j ≠ nextLo + (b - off)) → store'[j]? = store[j]?
  grow : ∀ k ∈ rem, store.length + (k.length - (d + 1)) ≤ store'.length
  nodeok : (∀ j bv, store[j]? = some bv → NodeOK store.length j bv) →
    ∀ j bv, store'[j]? = some bv → NodeOK store'.length j bv
  lookA : ∀ t : List (byteValue T),
    (∀ j, RunsRegion nextLo off rem d store.length store'.length j → t[j]? = store'[j]?) →
    ∀ k ∈ rem, ∀ b, k[d]? = some b →
      lookupStringFrom t (nextLo + (b - off)) (k.drop (d + 1)) = some (get k, true)
  lookB : ∀ t : List (byteValue T),
    (∀ j, RunsRegion nextLo off rem d store.length store'.length j → t[j]? = store'[j]?) →
    ∀ b, (∃ k ∈ rem, k[d]? = some b) →
    ∀ bs, (∀ k ∈ rem, k[d]? = some b → k.drop (d + 1) ≠ bs) →
      lookupStringFrom t (nextLo + (b - off)) bs = some (default, false)
  enum : ∀ t : List (byteValue T),
    (∀ j, RunsRegion nextLo off rem d store.length store'.length j → t[j]? = store'[j]?) →
    ∀ b, (∃ k ∈ rem, k[d]? = some b) →
    ∀ fuel₂ pfx acc, (∀ k ∈ rem, k.length - (d + 1) < fuel₂) →
      appendKeysFrom t fuel₂ (nextLo + (b - off)) pfx acc =
        some (acc ++ (rem.filter (fun k => k[d]? == some b)).map
          (fun k => pfx ++ k.drop (d + 1)))

theorem runsPost_nil [Inhabited T] (get : Key → T) (store : List (byteValue T))
    (nextLo off d : Nat) : RunsPost get store store nextLo off [] d := by
  refine ⟨Nat.le_refl _, fun j _ _ => rfl, by simp, fun h => h, by simp, ?_, ?_⟩
  · intro t _ b hb
    exact absurd hb (by simp)
  · intro t _ b hb
    exact absurd hb (by simp)

theorem buildRuns_spec [Inhabited T] (get : Key → T) (fuel : Nat)
    (IH : ∀ (store : List (byteValue T)) idx a d store',
      makeByteValue get fuel store idx a d = some store' →
      store[idx]? = some defaultBV →
      List.Pairwise (fun x y => lexLt (x.drop d) (y.drop d) = true) a →
      (∀ k ∈ a, ∀ b ∈ k.drop d, b < 256) →
      BuildPost get store store' idx a d) :
    ∀ n (rem : List Key), rem.length ≤ n →
    ∀ (store : List (byteValue T)) (nextLo off d : Nat) (store' : List (byteValue T)),
      buildRuns (fun st i ks => makeByteValue get fuel st i ks (d + 1)) nextLo off d
          store (groupRuns d rem) = some store' →
      (∀ k ∈ rem, ∃ b, k[d]? = some b ∧ off ≤ b) →
      (∀ k ∈ rem, ∀ b ∈ k.drop d, b < 256) →
      List.Pairwise (fun x y => lexLt (x.drop d) (y.drop d) = true) rem →
      (∀ k ∈ rem, ∀ b, k[d]? = some b → store[nextLo + (b - off)]? = some defaultBV) →
      RunsPost get store store' nextLo off rem d := by
  intro n
  induction n with
  | zero =>
    intro rem hlen store nextLo off d store' hbr _ _ _ _
    have hrem : rem = [] := List.eq_nil_of_length_eq_zero (by omega)
    subst hrem
    rw [groupRuns] at hbr
    rw [buildRuns] at hbr
    cases hbr
    exact runsPost_nil get store nextLo off d
  | succ n ihn =>
    intro rem hlen store nextLo off d store' hbr Hne Hbytes Hsort Hslots
    cases rem with
    | nil =>
      rw [groupRuns] at hbr
      rw [buildRuns] at hbr
      cases hbr
      exact runsPost_nil get store nextLo off d
    | cons k tl =>
      rw [groupRuns] at hbr
      obtain ⟨k₀, ks, hrun_eq, b, hb0, s₂, hf, hrest⟩ := buildRuns_cons_inv hbr
      injection hrun_eq with hk0 hks
      subst hk0
      subst hks
      -- abbreviations for the first run and the remaining keys
      set run : List Key := k :: tl.takeWhile (fun x => x[d]? == k[d]?) with hrun_def
      set rest : List Key := tl.dropWhile (fun x => x[d]? == k[d]?) with hrest_def
      have hbk : k[d]? = some b := hb0
      have hsplit : k :: tl = run ++ rest := by
        rw [hrun_def, hrest_def, List.cons_append, List.takeWhile_append_dropWhile]
      have hmem_k : k ∈ (k :: tl) := List.mem_cons_self _ _
      obtain ⟨b', hb', hoffb0⟩ := Hne k hmem_k
      have hoffb : off ≤ b := by
        have hbb' : b = b' := by rw [hbk] at hb'; exact Option.some_inj.mp hb'
        omega
      have hb256 : b < 256 := Hbytes k hmem_k b (by rw [drop_eq_byte_cons hbk]; exact List.mem_cons_self _ _)
      -- the child slot of the first run
      have hslot_arith : (b + 256 - off) % 256 = b - off := byteSub_eq hoffb hb256
      rw [hslot_arith] at hf
      have hslot_def : store[nextLo + (b - off)]? = some defaultBV := Hslots k hmem_k b hbk
      have hslot_lt : nextLo + (b - off) < store.length := by
        by_contra hc
        rw [List.getElem?_eq_none (by omega)] at hslot_def
        exact Option.noConfusion hslot_def
      -- every key of the first run has byte b at depth d
      have hrun_byte : ∀ x ∈ run, x[d]? = some b := by
        intro x hx
        rcases List.mem_cons.mp hx with rfl | hx
        · exact hbk
        · have := List.mem_takeWhile_imp hx
          rw [hbk] at this
          exact eq_of_beq this
      have hrun_sub : ∀ x ∈ run, x ∈ (k :: tl) := by
        intro x hx; rw [hsplit]; exact List.mem_append_left _ hx
      have hrest_sub : ∀ x ∈ rest, x ∈ (k :: tl) := by
        intro x hx; rw [hsplit]; exact List.mem_append_right _ hx
      -- split the sortedness along the run/rest division
      have Hsort' := hsplit ▸ Hsort
      rw [List.pairwise_append] at Hsort'
      obtain ⟨Hsort_run, Hsort_rest, Hcross⟩ := Hsort'
      -- every key after the first run has a strictly larger byte at depth d
      have hrest_byte_gt : ∀ x ∈ rest, ∀ bx, x[d]? = some bx → b < bx := by
        intro x hx bx hbx
        have hne1 : rest ≠ [] := fun hcon => by
          rw [hcon] at hx; exact List.not_mem_nil x hx
        have hx₁p : ((rest.head hne1)[d]? == k[d]?) = false :=
          List.head_dropWhile_not (fun y => y[d]? == k[d]?) tl hne1
        obtain ⟨b₁, hb₁, _⟩ := Hne (rest.head hne1) (hrest_sub _ (List.head_mem hne1))
        have hble1 : b ≤ b₁ :=
          lexLt_drop_byte_le hbk hb₁
            (Hcross k (List.mem_cons_self _ _) _ (List.head_mem hne1))
        have hb₁ne : b₁ ≠ b := by
          intro hcon
          rw [hb₁, hbk, hcon] at hx₁p
          simp at hx₁p
        have hx' : x = rest.head hne1 ∨ x ∈ rest.tail := by
          have hxc := hx
          rw [← List.head_cons_tail rest hne1] at hxc
          exact List.mem_cons.mp hxc
        rcases hx' with hxh | hxt
        · rw [hxh, hb₁] at hbx
          have : b₁ = bx := Option.some_inj.mp hbx
          omega
        · have hpair : b₁ ≤ bx := by
            have hs := Hsort_rest
            rw [← List.head_cons_tail rest hne1] at hs
            exact lexLt_drop_byte_le hb₁ hbx ((List.pairwise_cons.mp hs).1 x hxt)
          omega
      -- apply the master induction hypothesis to the first run
      have hrun_pair : List.Pairwise (fun x y => lexLt (x.drop (d + 1)) (y.drop (d + 1)) = true) run := by
        refine Hsort_run.imp_of_mem ?_
        intro x y hx hy hxy
        rw [drop_eq_byte_cons (hrun_byte x hx), drop_eq_byte_cons (hrun_byte y hy),
          lexLt_cons_same] at hxy
        exact hxy
      have hrun_bytes : ∀ x ∈ run, ∀ c ∈ x.drop (d + 1), c < 256 := by
        intro x hx c hc
        exact Hbytes x (hrun_sub x hx) c (mem_drop_succ_mem_drop (hrun_byte x hx) hc)
      have P₂ : BuildPost get store s₂ (nextLo + (b - off)) run (d + 1) :=
        IH store (nextLo + (b - off)) run (d + 1) s₂ hf hslot_def hrun_pair hrun_bytes
      -- apply the loop induction hypothesis to the remaining keys
      have hrest_len : rest.length ≤ n := by
        have h1 : (k :: tl).length = run.length + rest.length := by
          rw [hsplit, List.length_append]
        have h2 : 1 ≤ run.length := by rw [hrun_def]; simp
        simp only [List.length_cons] at h1 hlen
        omega
      have hrest_slots : ∀ x ∈ rest, ∀ bx, x[d]? = some bx →
          s₂[nextLo + (bx - off)]? = some defaultBV := by
        intro x hx bx hbx
        have hgt : b < bx := hrest_byte_gt x hx bx hbx
        have hslotne : nextLo + (bx - off) ≠ nextLo + (b - off) := by omega
        have hslotlt : nextLo + (bx - off) < store.length := by
          have hd := Hslots x (hrest_sub x hx) bx hbx
          by_contra hc
          rw [List.getElem?_eq_none (by omega)] at hd
          exact Option.noConfusion hd
        rw [P₂.frame _ hslotne hslotlt]
        exact Hslots x (hrest_sub x hx) bx hbx
      have P₃ : RunsPost get s₂ store' nextLo off rest d :=
        ihn rest hrest_len s₂ nextLo off d store' hrest
          (fun x hx => Hne x (hrest_sub x hx))
          (fun x hx => Hbytes x (hrest_sub x hx))
          Hsort_rest hrest_slots
      -- region inclusion and transfer facts
      have hreg_run : ∀ j, Region (nextLo + (b - off)) store.length s₂.length j →
          RunsRegion nextLo off (k :: tl) d store.length store'.length j := by
        intro j hj
        rcases hj with rfl | ⟨h1, h2⟩
        · exact Or.inl ⟨k, hmem_k, b, hbk, rfl⟩
        · exact Or.inr ⟨h1, by have := P₃.mono; omega⟩
      have hreg_rest : ∀ j, RunsRegion nextLo off rest d s₂.length store'.length j →
          RunsRegion nextLo off (k :: tl) d store.length store'.length j := by
        intro j hj
        rcases hj with ⟨x, hx, bx, hbx, rfl⟩ | ⟨h1, h2⟩
        · exact Or.inl ⟨x, hrest_sub x hx, bx, hbx, rfl⟩
        · exact Or.inr ⟨by have := P₂.mono; omega, h2⟩
      have hstore'_s₂ : ∀ j, Region (nextLo + (b - off)) store.length s₂.length j →
          store'[j]? = s₂[j]? := by
        intro j hj
        rcases hj with rfl | ⟨h1, h2⟩
        · refine P₃.frame _ (by have := P₂.mono; omega) ?_
          intro x hx bx hbx
          have := hrest_byte_gt x hx bx hbx
          omega
        · refine P₃.frame _ h2 ?_
          intro x hx bx hbx
          have : nextLo + (bx - off) < store.length := by
            have hd := Hslots x (hrest_sub x hx) bx hbx
            by_contra hc
            rw [List.getElem?_eq_none (by omega)] at hd
            exact Option.noConfusion hd
          omega
      have hagree_run : ∀ (t : List (byteValue T)),
          (∀ j, RunsRegion nextLo off (k :: tl) d store.length store'.length j →
            t[j]? = store'[j]?) →
          ∀ j, Region (nextLo + (b - off)) store.length s₂.length j → t[j]? = s₂[j]? := by
        intro t hag j hj
        rw [hag j (hreg_run j hj)]
        exact hstore'_s₂ j hj
      have hagree_rest : ∀ (t : List (byteValue T)),
          (∀ j, RunsRegion nextLo off (k :: tl) d store.length store'.length j →
            t[j]? = store'[j]?) →
          ∀ j, RunsRegion nextLo off rest d s₂.length store'.length j → t[j]? = store'[j]? := by
        intro t hag j hj
        exact hag j (hreg_rest j hj)
      -- byte-driven membership: a key of `k :: tl` is in the run iff its byte is `b`
      have hmem_byte : ∀ x ∈ (k :: tl), ∀ bx, x[d]? = some bx →
          (b = bx ∧ x ∈ run) ∨ (b < bx ∧ x ∈ rest) := by
        intro x hx bx hbx
        have hx' := hsplit ▸ hx
        rcases List.mem_append.mp hx' with hxr | hxr
        · left
          refine ⟨?_, hxr⟩
          have hxb := hrun_byte x hxr
          rw [hbx] at hxb
          exact Option.some_inj.mp hxb.symm
        · exact Or.inr ⟨hrest_byte_gt x hxr bx hbx, hxr⟩
      -- assemble the postcondition
      refine ⟨?_, ?_, ?_, ?_, ?_, ?_, ?_⟩
      · have := P₂.mono; have := P₃.mono; omega
      · intro j hj hslots
        rw [P₃.frame j (by have := P₂.mono; omega)
          (fun x hx bx hbx => hslots x (hrest_sub x hx) bx hbx)]
        exact P₂.frame j (hslots k hmem_k b hbk) hj
      · intro x hx
        rcases List.mem_append.mp (hsplit ▸ hx) with hxr | hxr
        · have := P₂.grow x hxr
          have := P₃.mono
          omega
        · have := P₃.grow x hxr
          have := P₂.mono
          omega
      · intro hpre
        exact P₃.nodeok (P₂.nodeok hpre)
      · intro t hag x hx bx hbx
        rcases hmem_byte x hx bx hbx with ⟨rfl, hxr⟩ | ⟨_, hxr⟩
        · exact P₂.lookA t (hagree_run t hag) x hxr
        · exact P₃.lookA t (hagree_rest t hag) x hxr bx hbx
      · intro t hag b₀ ⟨kw, hkw, hkwb⟩ bs hnot
        rcases hmem_byte kw hkw b₀ hkwb with ⟨rfl, hxr⟩ | ⟨hgt, hxr⟩
        · exact P₂.lookB t (hagree_run t hag) bs
            (fun x hx => hnot x (hrun_sub x hx) (hrun_byte x hx))
        · exact P₃.lookB t (hagree_rest t hag) b₀ ⟨kw, hxr, hkwb⟩ bs
            (fun x hx hxb => hnot x (hrest_sub x hx) hxb)
      · intro t hag b₀ ⟨kw, hkw, hkwb⟩ fuel₂ pfx acc hfuel
        rcases hmem_byte kw hkw b₀ hkwb with ⟨rfl, hxr⟩ | ⟨hgt, hxr⟩
        · have hfilter : (k :: tl).filter (fun x => x[d]? == some b) = run := by
            rw [hsplit, List.filter_append]
            have h1 : run.filter (fun x => x[d]? == some b) = run :=
              List.filter_eq_self.mpr (fun x hx => by rw [hrun_byte x hx]; simp)
            have h2 : rest.filter (fun x => x[d]? == some b) = [] := by
              rw [List.filter_eq_nil_iff]
              intro x hx
              obtain ⟨bx, hbx, _⟩ := Hne x (hrest_sub x hx)
              have := hrest_byte_gt x hx bx hbx
              rw [hbx]
              simp
              omega
            rw [h1, h2, List.append_nil]
          rw [hfilter]
          exact P₂.enum t (hagree_run t hag) fuel₂ pfx acc
            (fun x hx => hfuel x (hrun_sub x hx))
        · have hfilter : (k :: tl).filter (fun x => x[d]? == some b₀) =
              rest.filter (fun x => x[d]? == some b₀) := by
            rw [hsplit, List.filter_append]
            have h1 : run.filter (fun x => x[d]? == some b₀) = [] := by
              rw [List.filter_eq_nil_iff]
              intro x hx
              rw [hrun_byte x hx]
              simp
              omega
            rw [h1, List.nil_append]
          rw [hfilter]
          exact P₃.enum t (hagree_rest t hag) b₀ ⟨kw, hxr, hkwb⟩ fuel₂ pfx acc
            (fun x hx => hfuel x (hrest_sub x hx))

theorem NodeOK_mono {T : Type} {len len' i : Nat} {bv : byteValue T}
    (h : len ≤ len') (hok : NodeOK len i bv) : NodeOK len' i bv :=
  ⟨Nat.le_trans hok.1 h, hok.2⟩

/-- Proof-side predicate: the byte of `k` at depth `d` is below `c`. -/
def byteLtAt (d : Nat) (k : Key) (c : Nat) : Bool :=
  match k[d]? with
  | some bk => decide (bk < c)
  | none => false

theorem byteLtAt_eq {d c bk : Nat} {k : Key} (h : k[d]? = some bk) :
    byteLtAt d k c = decide (bk < c) := by
  unfold byteLtAt
  rw [h]

/-- In a list of keys whose bytes at depth `d` are defined and non-decreasing,
dropping the keys below byte `c` splits as the keys at byte `c` followed by
the keys above it. -/
theorem byte_sorted_split (d c : Nat) : ∀ l : List Key,
    (∀ k ∈ l, ∃ bk, k[d]? = some bk) →
    List.Pairwise (fun x y => ∀ bx byy, x[d]? = some bx → y[d]? = some byy → bx ≤ byy) l →
    l.dropWhile (fun k => byteLtAt d k c) =
      l.filter (fun k => k[d]? == some c) ++ l.dropWhile (fun k => byteLtAt d k (c + 1))
  | [] => by intro _ _; rfl
  | k :: rest => by
    intro hbytes hsort
    obtain ⟨bk, hbk⟩ := hbytes k (List.mem_cons_self _ _)
    have hpair := List.pairwise_cons.mp hsort
    have ih := byte_sorted_split d c rest (fun x hx => hbytes x (List.mem_cons_of_mem _ hx)) hpair.2
    rcases Nat.lt_trichotomy bk c with hlt | rfl | hgt
    · rw [List.dropWhile_cons, byteLtAt_eq hbk, if_pos (by simpa using hlt),
        List.dropWhile_cons, byteLtAt_eq hbk, if_pos (by simp; omega),
        List.filter_cons, if_neg (by simp [hbk]; omega)]
      exact ih
    · have hrest_ge : ∀ x ∈ rest, ∀ bx, x[d]? = some bx → bk ≤ bx :=
        fun x hx bx hbx => hpair.1 x hx bk bx hbk hbx
      rw [List.dropWhile_cons, byteLtAt_eq hbk, if_neg (by simp),
        List.dropWhile_cons, byteLtAt_eq hbk, if_pos (by simp),
        List.filter_cons, if_pos (by simp [hbk])]
      rw [List.cons_append]
      congr 1
      rw [← ih]
      cases hr : rest with
      | nil => rfl
      | cons x rx =>
        obtain ⟨bx, hbx⟩ := hbytes x (by rw [hr]; exact List.mem_cons_of_mem _ (List.mem_cons_self _ _))
        have : bk ≤ bx := hrest_ge x (by rw [hr]; exact List.mem_cons_self _ _) bx hbx
        rw [List.dropWhile_cons, byteLtAt_eq hbx, if_neg (by simp; omega)]
    · have hrest_gt : ∀ x ∈ rest, ∀ bx, x[d]? = some bx → c < bx := by
        intro x hx bx hbx
        have := hpair.1 x hx bk bx hbk hbx
        omega
      rw [List.dropWhile_cons, byteLtAt_eq hbk, if_neg (by simp; omega),
        List.dropWhile_cons, byteLtAt_eq hbk, if_neg (by simp; omega),
        List.filter_cons, if_neg (by simp [hbk]; omega)]
      have hfil : rest.filter (fun k => k[d]? == some c) = [] := by
        rw [List.filter_eq_nil_iff]
        intro x hx
        obtain ⟨bx, hbx⟩ := hbytes x (List.mem_cons_of_mem _ hx)
        have := hrest_gt x hx bx hbx
        rw [hbx]
        simp
        omega
      rw [hfil, List.nil_append]

/-- Postcondition bundle for the child-building phase of one `makeByteValue`
call: `bv2` is the node written at `idx`, `a'` the keys that continue past
depth `d`. -/
structure ChildrenPost [Inhabited T] (get : Key → T) (store store' : List (byteValue T))
    (idx : Nat) (bv2 : byteValue T) (a' : List Key) (d : Nat) : Prop where
  mono : store.length ≤ store'.length
  frame : ∀ j, j ≠ idx → j < store.length → store'[j]? = store[j]?
  idxeq : store'[idx]? = some bv2
  grow : ∀ k ∈ a', store.length + (k.length - d) ≤ store'.length
  nodeok : (∀ j bv, store[j]? = some bv → NodeOK store.length j bv) →
    ∀ j bv, store'[j]? = some bv → NodeOK store'.length j bv
  keybytes : ∀ k ∈ a', ∃ bk, k[d]? = some bk ∧ bv2.nextOffset ≤ bk ∧
    bk - bv2.nextOffset < bv2.nextLen
  lookA : ∀ t : List (byteValue T),
    (∀ j, Region idx store.length store'.length j → t[j]? = store'[j]?) →
    ∀ k ∈ a', ∀ bk, k[d]? = some bk →
      lookupStringFrom t (bv2.nextLo + (bk - bv2.nextOffset)) (k.drop (d + 1)) =
        some (get k, true)
  lookB : ∀ t : List (byteValue T),
    (∀ j, Region idx store.length store'.length j → t[j]? = store'[j]?) →
    ∀ b₀, bv2.nextOffset ≤ b₀ → b₀ - bv2.nextOffset < bv2.nextLen →
    ∀ bs, (∀ k ∈ a', k[d]? = some b₀ → k.drop (d + 1) ≠ bs) →
      lookupStringFrom t (bv2.nextLo + (b₀ - bv2.nextOffset)) bs = some (default, false)
  enum : ∀ t : List (byteValue T),
    (∀ j, Region idx store.length store'.length j → t[j]? = store'[j]?) →
    ∀ f pfx acc, (∀ k ∈ a', k.length - (d + 1) < f) → 1 ≤ f →
      appendKidsFrom (appendKeysFrom t f) bv2.nextLo bv2.nextOffset pfx bv2.nextLen 0 acc =
        some (acc ++ a'.map (fun k => pfx ++ k.drop d))

theorem byte_of_drop_cons {k : Key} {d c : Nat} {cs : List Nat}
    (h : k.drop d = c :: cs) : k[d]? = some c := by
  have h0 : (k.drop d)[0]? = some c := by rw [h]; simp
  rw [List.getElem?_drop] at h0
  simpa using h0

theorem getElem?_some_lt {T : Type} {l : List T} {i : Nat} {x : T}
    (h : l[i]? = some x) : i < l.length := by
  by_contra hc
  rw [List.getElem?_eq_none (by omega)] at h
  exact Option.noConfusion h

theorem appendKidsFrom_step {f : Nat → List Nat → List Key → Option (List Key)}
    {nextLo off : Nat} {pfx : List Nat} {n j : Nat} {acc acc₁ : List Key}
    (h : f (nextLo + j) (pfx ++ [(off + j) % 256]) acc = some acc₁) :
    appendKidsFrom f nextLo off pfx (n + 1) j acc =
      appendKidsFrom f nextLo off pfx n (j + 1) acc₁ := by
  rw [appendKidsFrom, h]

theorem mbv_children [Inhabited T] (get : Key → T) (fuel : Nat)
    (ih : ∀ (store : List (byteValue T)) idx a d store',
      makeByteValue get fuel store idx a d = some store' →
      store[idx]? = some defaultBV →
      List.Pairwise (fun x y => lexLt (x.drop d) (y.drop d) = true) a →
      (∀ k ∈ a, ∀ b ∈ k.drop d, b < 256) →
      BuildPost get store store' idx a d)
    (store : List (byteValue T)) (idx d : Nat) (bv1 : byteValue T)
    (k1 : Key) (t1 : List Key) (store' : List (byteValue T)) (lo hi : Nat)
    (hidx : idx < store.length)
    (hlo : k1[d]? = some lo)
    (hhi : ((k1 :: t1).getLast (List.cons_ne_nil k1 t1))[d]? = some hi)
    (hbr : buildRuns (fun st i ks => makeByteValue get fuel st i ks (d + 1))
        store.length lo d
        (store.set idx { bv1 with nextOffset := lo, nextLen := nextLenOf lo hi, nextLo := store.length } ++ List.replicate (nextLenOf lo hi) defaultBV)
        (groupRuns d (k1 :: t1)) = some store')
    (hsort : List.Pairwise (fun x y => lexLt (x.drop d) (y.drop d) = true) (k1 :: t1))
    (hbytes : ∀ k ∈ k1 :: t1, ∀ b ∈ k.drop d, b < 256) :
    ChildrenPost get store store' idx
      { bv1 with nextOffset := lo, nextLen := nextLenOf lo hi, nextLo := store.length }
      (k1 :: t1) d := by
  have hmem1 : k1 ∈ (k1 :: t1) := List.mem_cons_self _ _
  have hlomem : lo ∈ k1.drop d := by
    rw [drop_eq_byte_cons hlo]; exact List.mem_cons_self _ _
  have hlo256 : lo < 256 := hbytes k1 hmem1 lo hlomem
  have hlastmem : (k1 :: t1).getLast (List.cons_ne_nil k1 t1) ∈ (k1 :: t1) :=
    List.getLast_mem _
  have hhi256 : hi < 256 := by
    refine hbytes _ hlastmem hi ?_
    rw [drop_eq_byte_cons hhi]; exact List.mem_cons_self _ _
  have hlohi : lo ≤ hi := by
    rcases pairwise_lexLt_getLast hsort (List.cons_ne_nil k1 t1) k1 hmem1 with heq | hlex
    · rw [← heq, hlo] at hhi
      have := Option.some_inj.mp hhi
      omega
    · exact lexLt_drop_byte_le hlo hhi hlex
  -- bytes of all keys exist and lie between lo and hi
  have keybytes0 : ∀ k ∈ (k1 :: t1), ∃ bk, k[d]? = some bk ∧ lo ≤ bk ∧ bk ≤ hi := by
    intro k hk
    have hbex : ∃ bk, k[d]? = some bk := by
      rcases List.mem_cons.mp hk with rfl | hk'
      · exact ⟨lo, hlo⟩
      · have hrel := (List.pairwise_cons.mp hsort).1 k hk'
        rw [drop_eq_byte_cons hlo] at hrel
        cases hdk : k.drop d with
        | nil => rw [hdk] at hrel; simp at hrel
        | cons c cs => exact ⟨c, byte_of_drop_cons hdk⟩
    obtain ⟨bk, hbk⟩ := hbex
    refine ⟨bk, hbk, ?_, ?_⟩
    · rcases List.mem_cons.mp hk with rfl | hk'
      · rw [hlo] at hbk; cases Option.some_inj.mp hbk; exact Nat.le_refl _
      · exact lexLt_drop_byte_le hlo hbk ((List.pairwise_cons.mp hsort).1 k hk')
    · rcases pairwise_lexLt_getLast hsort (List.cons_ne_nil k1 t1) k hk with heq | hlex
      · rw [← heq, hbk] at hhi
        have := Option.some_inj.mp hhi
        omega
      · exact lexLt_drop_byte_le hbk hhi hlex
  -- the first run succeeds, hence the reserved range is nonempty
  have hbr' := hbr
  rw [groupRuns] at hbr'
  obtain ⟨k₀, ks, hre, b, hb, s₂x, hfx, _⟩ := buildRuns_cons_inv hbr'
  injection hre with hre1 hre2
  subst hre1
  have hblo : b = lo := by rw [hlo] at hb; exact (Option.some_inj.mp hb).symm
  have hslot0 : (b + 256 - lo) % 256 = 0 := by omega
  rw [hslot0, Nat.add_zero] at hfx
  have hL_pos : 0 < nextLenOf lo hi := by
    by_contra hc
    have hL0 : nextLenOf lo hi = 0 := by omega
    have hoob : (store.set idx { bv1 with nextOffset := lo, nextLen := nextLenOf lo hi, nextLo := store.length } ++ List.replicate (nextLenOf lo hi) defaultBV)[store.length]?
        = none := by
      rw [List.getElem?_eq_none]
      simp [hL0]
    rw [makeByteValue_oob hoob] at hfx
    exact Option.noConfusion hfx
  have hL : nextLenOf lo hi = hi - lo + 1 := by
    unfold nextLenOf at hL_pos ⊢
    omega
  -- facts about the intermediate store
  have hlen₁ : (store.set idx { bv1 with nextOffset := lo, nextLen := nextLenOf lo hi, nextLo := store.length } ++ List.replicate (nextLenOf lo hi) defaultBV).length =
      store.length + nextLenOf lo hi := by
    simp
  have hs₁_idx : (store.set idx { bv1 with nextOffset := lo, nextLen := nextLenOf lo hi, nextLo := store.length } ++ List.replicate (nextLenOf lo hi) defaultBV)[idx]? =
      some { bv1 with nextOffset := lo, nextLen := nextLenOf lo hi, nextLo := store.length } := by
    rw [List.getElem?_append, if_pos (by simpa using hidx)]
    exact List.getElem?_set_self (by simpa using hidx)
  have hs₁_slot : ∀ c, c < nextLenOf lo hi →
      (store.set idx { bv1 with nextOffset := lo, nextLen := nextLenOf lo hi, nextLo := store.length } ++
        List.replicate (nextLenOf lo hi) defaultBV)[store.length + c]? = some defaultBV := by
    intro c hc
    rw [List.getElem?_append, if_neg (by simp)]
    simp [hc]
  have hs₁_old : ∀ j, j ≠ idx → j < store.length →
      (store.set idx { bv1 with nextOffset := lo, nextLen := nextLenOf lo hi, nextLo := store.length } ++
        List.replicate (nextLenOf lo hi) defaultBV)[j]? = store[j]? := by
    intro j hne hj
    rw [List.getElem?_append, if_pos (by simpa using hj)]
    exact List.getElem?_set_ne (fun hcon => hne (hcon.symm))
  -- run the loop specification
  have P₃ : RunsPost get
      (store.set idx { bv1 with nextOffset := lo, nextLen := nextLenOf lo hi, nextLo := store.length } ++ List.replicate (nextLenOf lo hi) defaultBV)
      store' store.length lo (k1 :: t1) d := by
    refine buildRuns_spec get fuel ih (k1 :: t1).length (k1 :: t1) (Nat.le_refl _)
      _ store.length lo d store' hbr ?_ hbytes hsort ?_
    · intro k hk
      obtain ⟨bk, hbk, hlobk, _⟩ := keybytes0 k hk
      exact ⟨bk, hbk, hlobk⟩
    · intro k hk c hc
      obtain ⟨bk, hbk, hlobk, hbkhi⟩ := keybytes0 k hk
      have hceq : c = bk := by rw [hbk] at hc; exact (Option.some_inj.mp hc).symm
      subst hceq
      exact hs₁_slot (c - lo) (by omega)
  -- transfer of agreement regions
  have hregsub : ∀ j, RunsRegion store.length lo (k1 :: t1) d
      (store.length + nextLenOf lo hi) store'.length j →
      Region idx store.length store'.length j := by
    intro j hj
    have hm := P₃.mono
    rw [hlen₁] at hm
    rcases hj with ⟨x, hx, bx, hbx, rfl⟩ | ⟨h1, h2⟩
    · obtain ⟨bk, hbk, hlobk, hbkhi⟩ := keybytes0 x hx
      have : bx = bk := by rw [hbk] at hbx; exact (Option.some_inj.mp hbx).symm
      subst this
      exact Or.inr ⟨by omega, by omega⟩
    · exact Or.inr ⟨by omega, h2⟩
  have hreg' : ∀ (t : List (byteValue T)),
      (∀ j, Region idx store.length store'.length j → t[j]? = store'[j]?) →
      ∀ j, RunsRegion store.length lo (k1 :: t1) d
        (store.set idx { bv1 with nextOffset := lo, nextLen := nextLenOf lo hi, nextLo := store.length } ++ List.replicate (nextLenOf lo hi) defaultBV).length
        store'.length j → t[j]? = store'[j]? := by
    intro t hag j hj
    rw [hlen₁] at hj
    exact hag j (hregsub j hj)
  -- region transfer uses the rewritten intermediate length
  have P₃frame : ∀ j, j < store.length + nextLenOf lo hi →
      (∀ x ∈ (k1 :: t1), ∀ bx, x[d]? = some bx → j ≠ store.length + (bx - lo)) →
      store'[j]? = (store.set idx { bv1 with nextOffset := lo, nextLen := nextLenOf lo hi, nextLo := store.length } ++ List.replicate (nextLenOf lo hi) defaultBV)[j]? := by
    intro j h1 h2
    exact P₃.frame j (by rw [hlen₁]; omega) h2
  have hslot_ne_idx : ∀ x ∈ (k1 :: t1), ∀ bx, x[d]? = some bx →
      idx ≠ store.length + (bx - lo) := by
    intro x hx bx hbx
    omega
  have hstore'_idx : store'[idx]? =
      some { bv1 with nextOffset := lo, nextLen := nextLenOf lo hi, nextLo := store.length } := by
    rw [P₃frame idx (by omega) hslot_ne_idx]
    exact hs₁_idx
  have hmono : store.length ≤ store'.length := by
    have := P₃.mono
    rw [hlen₁] at this
    omega
  have hmono₁ : store.length + nextLenOf lo hi ≤ store'.length := by
    have := P₃.mono
    rw [hlen₁] at this
    exact this
  refine ⟨hmono, ?_, hstore'_idx, ?_, ?_, ?_, ?_, ?_, ?_⟩
  · -- frame
    intro j hne hj
    rw [P₃frame j (by omega) (fun x hx bx hbx => by omega)]
    exact hs₁_old j hne hj
  · -- grow
    intro k hk
    obtain ⟨bk, hbk, _, _⟩ := keybytes0 k hk
    have hdlt : d < k.length := getElem?_some_lt hbk
    have := P₃.grow k hk
    rw [hlen₁] at this
    omega
  · -- nodeok
    intro hpre
    refine P₃.nodeok ?_
    intro j bv hjbv
    rw [hlen₁]
    by_cases hjlt : j < store.length
    · by_cases hjidx : j = idx
      · subst hjidx
        rw [hs₁_idx] at hjbv
        cases Option.some_inj.mp hjbv
        exact ⟨by simp, fun _ => by simpa using hjlt⟩
      · rw [hs₁_old j hjidx hjlt] at hjbv
        exact NodeOK_mono (by omega) (hpre j bv hjbv)
    · have hjlen : j < store.length + nextLenOf lo hi := by
        have := getElem?_some_lt hjbv
        rw [hlen₁] at this
        exact this
      have : (store.set idx { bv1 with nextOffset := lo, nextLen := nextLenOf lo hi, nextLo := store.length } ++
          List.replicate (nextLenOf lo hi) defaultBV)[j]? = some defaultBV := by
        have hj' : j = store.length + (j - store.length) := by omega
        rw [hj']
        exact hs₁_slot (j - store.length) (by omega)
      rw [this] at hjbv
      cases Option.some_inj.mp hjbv
      exact ⟨by simp [defaultBV], by simp [defaultBV]⟩
  · -- keybytes
    intro k hk
    obtain ⟨bk, hbk, hlobk, hbkhi⟩ := keybytes0 k hk
    exact ⟨bk, hbk, hlobk, by simpa using by omega⟩
  · -- lookA
    intro t hag k hk bk hbk
    exact P₃.lookA t (hreg' t hag) k hk bk hbk
  · -- lookB
    intro t hag b₀ hb₀lo hb₀L bs hnot
    have hb₀lo' : lo ≤ b₀ := hb₀lo
    have hb₀L' : b₀ - lo < nextLenOf lo hi := hb₀L
    by_cases hex : ∃ k ∈ (k1 :: t1), k[d]? = some b₀
    · exact P₃.lookB t (hreg' t hag) b₀ hex bs hnot
    · have hslot_t : t[store.length + (b₀ - lo)]? = some defaultBV := by
        rw [hag _ (Or.inr ⟨by omega, by omega⟩)]
        rw [P₃frame _ (by omega) ?_]
        · exact hs₁_slot (b₀ - lo) hb₀L'
        · intro x hx bx hbx
          have hne : bx ≠ b₀ := fun hcon => hex ⟨x, hx, by rw [hbx, hcon]⟩
          obtain ⟨bk, hbk, hlobk, _⟩ := keybytes0 x hx
          have : bx = bk := by rw [hbk] at hbx; exact (Option.some_inj.mp hbx).symm
          subst this
          omega
      exact lookupStringFrom_default hslot_t bs
  · -- enum: loop over all reserved slots in byte order
    intro t hag f pfx acc hfuel hf1
    have hpair_byte : List.Pairwise (fun x y => ∀ bx byy, x[d]? = some bx →
        y[d]? = some byy → bx ≤ byy) (k1 :: t1) := by
      refine hsort.imp_of_mem ?_
      intro x y _ _ hxy bx byy hbx hby
      exact lexLt_drop_byte_le hbx hby hxy
    have hbex : ∀ k ∈ (k1 :: t1), ∃ bk, k[d]? = some bk :=
      fun k hk => (keybytes0 k hk).imp (fun bk h => h.1)
    have hloop : ∀ n j acc₂, j + n = nextLenOf lo hi →
        appendKidsFrom (appendKeysFrom t f) store.length lo pfx n j acc₂ =
          some (acc₂ ++ ((k1 :: t1).dropWhile (fun k => byteLtAt d k (lo + j))).map
            (fun k => pfx ++ k.drop d)) := by
      intro n
      induction n with
      | zero =>
        intro j acc₂ hj
        have hnil : (k1 :: t1).dropWhile (fun k => byteLtAt d k (lo + j)) = [] := by
          rw [List.dropWhile_eq_nil_iff]
          intro x hx
          obtain ⟨bk, hbk, _, hbkhi⟩ := keybytes0 x hx
          rw [byteLtAt_eq hbk]
          simp
          omega
        rw [hnil]
        simp [appendKidsFrom]
      | succ n ihl =>
        intro j acc₂ hj
        have hj_lt : j < nextLenOf lo hi := by omega
        have hcj_le : lo + j ≤ hi := by omega
        have hmod : (lo + j) % 256 = lo + j := Nat.mod_eq_of_lt (by omega)
        have hsplitw := byte_sorted_split d (lo + j) (k1 :: t1) hbex hpair_byte
        by_cases hex : ∃ k ∈ (k1 :: t1), k[d]? = some (lo + j)
        · have hch := P₃.enum t (hreg' t hag) (lo + j) hex f (pfx ++ [lo + j]) acc₂ hfuel
          rw [Nat.add_sub_cancel_left] at hch
          rw [appendKidsFrom_step (by rw [hmod]; exact hch)]
          rw [ihl (j + 1) _ (by omega)]
          have hmapeq : ((k1 :: t1).filter (fun k => k[d]? == some (lo + j))).map
              (fun k => (pfx ++ [lo + j]) ++ k.drop (d + 1)) =
              ((k1 :: t1).filter (fun k => k[d]? == some (lo + j))).map
              (fun k => pfx ++ k.drop d) := by
            refine List.map_congr_left ?_
            intro x hx
            have hxb : x[d]? = some (lo + j) := by
              have := (List.mem_filter.mp hx).2
              exact eq_of_beq this
            rw [drop_eq_byte_cons hxb, List.append_assoc, List.singleton_append]
          rw [hmapeq]
          rw [show lo + (j + 1) = lo + j + 1 by omega, hsplitw, List.map_append,
            List.append_assoc]
        · have hslot_t : t[store.length + j]? = some defaultBV := by
            rw [hag _ (Or.inr ⟨by omega, by omega⟩)]
            rw [P₃frame _ (by omega) ?_]
            · exact hs₁_slot j hj_lt
            · intro x hx bx hbx
              have hne : bx ≠ lo + j := fun hcon => hex ⟨x, hx, by rw [hbx, hcon]⟩
              obtain ⟨bk, hbk, hlobk, _⟩ := keybytes0 x hx
              have : bx = bk := by rw [hbk] at hbx; exact (Option.some_inj.mp hbx).symm
              subst this
              omega
          obtain ⟨f', rfl⟩ : ∃ f', f = f' + 1 := ⟨f - 1, by omega⟩
          rw [appendKidsFrom_step (by rw [hmod]; exact appendKeysFrom_default hslot_t f' _ _)]
          rw [ihl (j + 1) acc₂ (by omega)]
          have hfil : (k1 :: t1).filter (fun k => k[d]? == some (lo + j)) = [] := by
            rw [List.filter_eq_nil_iff]
            intro x hx
            obtain ⟨bk, hbk, _, _⟩ := keybytes0 x hx
            have hne : bk ≠ lo + j := fun hcon => hex ⟨x, hx, by rw [hbk, hcon]⟩
            rw [hbk]
            simpa using hne
          rw [show lo + (j + 1) = lo + j + 1 by omega, hsplitw, hfil, List.nil_append]
    have hfin := hloop (nextLenOf lo hi) 0 acc (by omega)
    rw [Nat.add_zero] at hfin
    have hwhole : (k1 :: t1).dropWhile (fun k => byteLtAt d k lo) = k1 :: t1 := by
      rw [List.dropWhile_cons, byteLtAt_eq hlo, if_neg (by simp)]
    rw [hwhole] at hfin
    exact hfin

theorem buildPost_leaf [Inhabited T] (get : Key → T) (store : List (byteValue T))
    (idx d : Nat) (k0 : Key)
    (hidx : idx < store.length) (hk0 : k0.length = d) :
    BuildPost get store (store.set idx ⟨0, 0, 0, true, get k0⟩) idx [k0] d := by
  have hlen : (store.set idx (⟨0, 0, 0, true, get k0⟩ : byteValue T)).length = store.length := by
    simp
  have hdrop : k0.drop d = [] := by rw [← hk0]; exact List.drop_length k0
  refine ⟨by rw [hlen], ?_, ?_, ?_, ?_, ?_, ?_⟩
  · intro j hne _
    exact List.getElem?_set_ne (fun hcon => hne hcon.symm)
  · intro k hk
    rcases List.mem_singleton.mp hk with rfl
    rw [hlen, hk0]
    omega
  · intro hpre j bv hjbv
    rw [hlen]
    by_cases hj : j = idx
    · subst hj
      rw [List.getElem?_set_self hidx] at hjbv
      cases Option.some_inj.mp hjbv
      exact ⟨by simp, by simp⟩
    · rw [List.getElem?_set_ne (fun hcon => hj hcon.symm)] at hjbv
      exact hpre j bv hjbv
  · intro t hag k hk
    have hkk : k = k0 := List.mem_singleton.mp hk
    subst hkk
    rw [hdrop]
    have ht0 : t[idx]? = some (⟨0, 0, 0, true, get k⟩ : byteValue T) := by
      rw [hag idx (Or.inl rfl)]
      exact List.getElem?_set_self hidx
    rw [lookupStringFrom_nil ht0]
  · intro t hag bs hno
    have ht0 : t[idx]? = some (⟨0, 0, 0, true, get k0⟩ : byteValue T) := by
      rw [hag idx (Or.inl rfl)]
      exact List.getElem?_set_self hidx
    cases bs with
    | nil => exact absurd hdrop (hno k0 (List.mem_singleton.mpr rfl))
    | cons b rest =>
      rw [lookupStringFrom_cons ht0]
      simp
  · intro t hag fuel₂ pfx acc hfuel
    have ht0 : t[idx]? = some (⟨0, 0, 0, true, get k0⟩ : byteValue T) := by
      rw [hag idx (Or.inl rfl)]
      exact List.getElem?_set_self hidx
    obtain ⟨f, rfl⟩ : ∃ f, fuel₂ = f + 1 := by
      have := hfuel k0 (List.mem_singleton.mpr rfl)
      exact ⟨fuel₂ - 1, by omega⟩
    rw [appendKeysFrom, ht0]
    simp [appendKidsFrom, hdrop]

theorem appendKeysFrom_unfold [Inhabited T] {store : List (byteValue T)} {i : Nat}
    {bv : byteValue T} (h : store[i]? = some bv) (fuel : Nat) (pfx : List Nat)
    (acc : List Key) :
    appendKeysFrom store (fuel + 1) i pfx acc =
      appendKidsFrom (appendKeysFrom store fuel) bv.nextLo bv.nextOffset pfx bv.nextLen 0
        (if bv.valid then acc ++ [pfx] else acc) := by
  rw [appendKeysFrom, h]

theorem buildPost_node [Inhabited T] (get : Key → T)
    (store store' : List (byteValue T)) (idx d : Nat) (lo L : Nat) (vb : Bool) (vv : T)
    (a' a : List Key)
    (CP : ChildrenPost get store store' idx ⟨store.length, L, lo, vb, vv⟩ a' d)
    (ha'ne : a' ≠ [])
    (ha : (vb = true ∧ ∃ k0, k0.length = d ∧ vv = get k0 ∧ a = k0 :: a') ∨
      (vb = false ∧ vv = default ∧ a = a')) :
    BuildPost get store store' idx a d := by
  have hka : ∀ k ∈ a', k ∈ a := by
    intro k hk
    rcases ha with ⟨_, k0, _, _, rfl⟩ | ⟨_, _, rfl⟩
    · exact List.mem_cons_of_mem _ hk
    · exact hk
  obtain ⟨kw, hkw⟩ : ∃ kw, kw ∈ a' := by
    cases haa : a' with
    | nil => exact absurd haa ha'ne
    | cons x xs => exact ⟨x, List.mem_cons_self _ _⟩
  have hL1 : 1 ≤ L := by
    obtain ⟨bk, _, _, hlt⟩ := CP.keybytes kw hkw
    have hlt' : bk - lo < L := hlt
    omega
  have hidx_t : ∀ (t : List (byteValue T)),
      (∀ j, Region idx store.length store'.length j → t[j]? = store'[j]?) →
      t[idx]? = some ⟨store.length, L, lo, vb, vv⟩ := by
    intro t hag
    rw [hag idx (Or.inl rfl)]
    exact CP.idxeq
  refine ⟨CP.mono, CP.frame, ?_, CP.nodeok, ?_, ?_, ?_⟩
  · -- grow
    intro k hk
    rcases ha with ⟨_, k0, hk0len, _, rfl⟩ | ⟨_, _, rfl⟩
    · rcases List.mem_cons.mp hk with rfl | hk'
      · rw [hk0len]
        have := CP.mono
        omega
      · exact CP.grow k hk'
    · exact CP.grow k hk
  · -- lookA
    intro t hag k hk
    have hterm : k ∈ a' ∨ (vb = true ∧ k.length = d ∧ vv = get k) := by
      rcases ha with ⟨hvb, k0, hk0len, hvv, rfl⟩ | ⟨_, _, rfl⟩
      · rcases List.mem_cons.mp hk with rfl | hk'
        · exact Or.inr ⟨hvb, hk0len, hvv⟩
        · exact Or.inl hk'
      · exact Or.inl hk
    rcases hterm with hk' | ⟨hvb, hklen, hvv⟩
    · obtain ⟨bk, hbk, hlobk, hbkL⟩ := CP.keybytes k hk'
      have hlobk' : lo ≤ bk := hlobk
      have hbkL' : bk - lo < L := hbkL
      rw [drop_eq_byte_cons hbk, lookupStringFrom_cons (hidx_t t hag),
        if_neg (by simp; omega), if_neg (by simp; omega)]
      exact CP.lookA t hag k hk' bk hbk
    · rw [show k.drop d = [] from by rw [← hklen]; exact List.drop_length k,
        lookupStringFrom_nil (hidx_t t hag), hvb, hvv]
  · -- lookB
    intro t hag bs hno
    cases bs with
    | nil =>
      rcases ha with ⟨_, k0, hk0len, _, rfl⟩ | ⟨hvb, hvv, rfl⟩
      · exact absurd (by rw [← hk0len]; exact List.drop_length k0)
          (hno k0 (List.mem_cons_self _ _))
      · rw [lookupStringFrom_nil (hidx_t t hag), hvb, hvv]
    | cons b rest =>
      rw [lookupStringFrom_cons (hidx_t t hag)]
      by_cases hblo : b < lo
      · rw [if_pos (by simpa using hblo)]
      · rw [if_neg (by simpa using hblo)]
        by_cases hbL : L ≤ b - lo
        · rw [if_pos (by simpa using hbL)]
        · rw [if_neg (by simpa using hbL)]
          refine CP.lookB t hag b (show lo ≤ b by omega) (show b - lo < L by omega) rest ?_
          intro k' hk' hk'b hk'drop
          refine hno k' (hka k' hk') ?_
          rw [drop_eq_byte_cons hk'b, hk'drop]
  · -- enum
    intro t hag fuel₂ pfx acc hfuel
    obtain ⟨bkw, hbkw, _, _⟩ := CP.keybytes kw hkw
    have hkwlen : d < kw.length := getElem?_some_lt hbkw
    obtain ⟨f, rfl⟩ : ∃ f, fuel₂ = f + 1 := by
      have := hfuel kw (hka kw hkw)
      exact ⟨fuel₂ - 1, by omega⟩
    have hf1 : 1 ≤ f := by
      have := hfuel kw (hka kw hkw)
      omega
    have hfuel' : ∀ k ∈ a', k.length - (d + 1) < f := by
      intro k hk
      have := hfuel k (hka k hk)
      omega
    rw [appendKeysFrom_unfold (hidx_t t hag)]
    simp only [byteValue.nextLo_mk, byteValue.nextLen_mk, byteValue.nextOffset_mk,
      byteValue.valid_mk]
    rcases ha with ⟨hvb, k0, hk0len, hvv, rfl⟩ | ⟨hvb, _, rfl⟩
    · subst hvb
      rw [if_pos rfl]
      have hkids : appendKidsFrom (appendKeysFrom t f) store.length lo pfx L 0 (acc ++ [pfx]) =
          some ((acc ++ [pfx]) ++ a'.map (fun k => pfx ++ k.drop d)) :=
        CP.enum t hag f pfx (acc ++ [pfx]) hfuel' hf1
      rw [hkids]
      rw [List.map_cons, show pfx ++ k0.drop d = pfx from by
        rw [show k0.drop d = [] from by rw [← hk0len]; exact List.drop_length k0,
          List.append_nil]]
      simp
    · subst hvb
      rw [if_neg (by simp)]
      have hkids : appendKidsFrom (appendKeysFrom t f) store.length lo pfx L 0 acc =
          some (acc ++ a.map (fun k => pfx ++ k.drop d)) :=
        CP.enum t hag f pfx acc hfuel' hf1
      rw [hkids]

/-- Master correctness property of `makeByteValue`: whenever a call succeeds
on a fresh node and a strictly sorted key slice, the bundled postconditions of
`BuildPost` hold. -/
theorem makeByteValue_spec [Inhabited T] (get : Key → T) :
    ∀ (fuel : Nat) (store : List (byteValue T)) (idx : Nat) (a : List Key) (d : Nat)
      (store' : List (byteValue T)),
      makeByteValue get fuel store idx a d = some store' →
      store[idx]? = some defaultBV →
      List.Pairwise (fun x y => lexLt (x.drop d) (y.drop d) = true) a →
      (∀ k ∈ a, ∀ b ∈ k.drop d, b < 256) →
      BuildPost get store store' idx a d := by
  intro fuel
  induction fuel with
  | zero =>
    intro store idx a d store' hmk _ _ _
    exact Option.noConfusion hmk
  | succ fuel ih =>
    intro store idx a d store' hmk hidx hsort hbytes
    have hidxlt : idx < store.length := getElem?_some_lt hidx
    rw [makeByteValue, hidx] at hmk
    cases a with
    | nil => simp at hmk
    | cons k0 tl =>
      simp only [] at hmk
      by_cases hk0 : k0.length = d
      · simp only [if_pos hk0] at hmk
        cases tl with
        | nil =>
          simp only [] at hmk
          have hst : store.set idx { defaultBV with valid := true, value := get k0 } = store' :=
            Option.some_inj.mp hmk
          rw [← hst]
          exact buildPost_leaf get store idx d k0 hidxlt hk0
        | cons k1 t1 =>
          simp only [] at hmk
          cases hlo : k1[d]? with
          | none => rw [hlo] at hmk; simp at hmk
          | some lo =>
            cases hhi : ((k1 :: t1).getLast (List.cons_ne_nil k1 t1))[d]? with
            | none => rw [hlo, hhi] at hmk; simp at hmk
            | some hi =>
              rw [hlo, hhi] at hmk
              simp only [] at hmk
              have hsort1 : List.Pairwise
                  (fun x y => lexLt (x.drop d) (y.drop d) = true) (k1 :: t1) :=
                (List.pairwise_cons.mp hsort).2
              have hbytes1 : ∀ k ∈ (k1 :: t1), ∀ b ∈ k.drop d, b < 256 :=
                fun k hk => hbytes k (List.mem_cons_of_mem _ hk)
              have CP := mbv_children get fuel ih store idx d
                { (defaultBV : byteValue T) with valid := true, value := get k0 } k1 t1
                store' lo hi hidxlt hlo hhi hmk hsort1 hbytes1
              have CP' : ChildrenPost get store store' idx
                  ⟨store.length, nextLenOf lo hi, lo, true, get k0⟩ (k1 :: t1) d := CP
              exact buildPost_node get store store' idx d lo (nextLenOf lo hi) true (get k0)
                (k1 :: t1) (k0 :: k1 :: t1) CP' (List.cons_ne_nil k1 t1)
                (Or.inl ⟨rfl, k0, hk0, rfl, rfl⟩)
      · simp only [if_neg hk0] at hmk
        cases hlo : k0[d]? with
        | none => rw [hlo] at hmk; simp at hmk
        | some lo =>
          cases hhi : ((k0 :: tl).getLast (List.cons_ne_nil k0 tl))[d]? with
          | none => rw [hlo, hhi] at hmk; simp at hmk
          | some hi =>
            rw [hlo, hhi] at hmk
            simp only [] at hmk
            have CP := mbv_children get fuel ih store idx d defaultBV k0 tl store' lo hi
              hidxlt hlo hhi hmk hsort hbytes
            have CP' : ChildrenPost get store store' idx
                ⟨store.length, nextLenOf lo hi, lo, false, (default : T)⟩ (k0 :: tl) d := CP
            exact buildPost_node get store store' idx d lo (nextLenOf lo hi) false default
              (k0 :: tl) (k0 :: tl) CP' (List.cons_ne_nil k0 tl) (Or.inr ⟨rfl, rfl, rfl⟩)

/-- Consolidated facts about any map produced by `NewMap` from a duplicate-free
source of byte strings. -/
structure MapPost [Inhabited T] (src : Source T) (m : Map T) : Prop where
  lookA : ∀ k ∈ src.keys, m.LookupString k = some (src.get k, true)
  lookB : ∀ q, q ∉ src.keys → m.LookupString q = some (default, false)
  storeok : StoreOK m.store
  enum : ∀ acc, m.AppendSortedKeys acc = some (acc ++ sortKeys src.keys)
  nonempty : 1 ≤ m.store.length

theorem initial_store_nodeok [Inhabited T] :
    ∀ j bv, ([defaultBV] : List (byteValue T))[j]? = some bv → NodeOK 1 j bv := by
  intro j bv hj
  match j, hj with
  | 0, hj =>
    have : bv = defaultBV := (Option.some_inj.mp hj).symm
    subst this
    exact ⟨by simp [defaultBV], by simp [defaultBV]⟩

theorem NewMap_post [Inhabited T] (src : Source T) (m : Map T)
    (hnd : src.keys.Nodup)
    (hbytes : ∀ k ∈ src.keys, ∀ b ∈ k, b < 256)
    (hm : NewMap src = some m) : MapPost src m := by
  rw [NewMap] at hm
  cases hkeys : src.keys with
  | nil =>
    rw [hkeys] at hm
    have hmv : m = ⟨[defaultBV]⟩ := (Option.some_inj.mp hm).symm
    subst hmv
    have hsortnil : sortKeys src.keys = [] := by rw [hkeys]; rfl
    refine ⟨?_, ?_, ?_, ?_, by simp⟩
    · intro k hk
      rw [hkeys] at hk
      exact absurd hk (List.not_mem_nil k)
    · intro q _
      exact lookupStringFrom_default (by simp) q
    · intro i bv hj
      exact initial_store_nodeok i bv hj
    · intro acc
      rw [Map.AppendSortedKeys, hsortnil, List.append_nil]
      exact appendKeysFrom_default rfl 0 [] acc
  | cons k00 tl0 =>
    rw [hkeys] at hm
    simp only [Option.map_eq_some'] at hm
    obtain ⟨store', hb, hmv⟩ := hm
    have hmv' : m = ⟨store'⟩ := hmv.symm
    subst hmv'
    rw [← hkeys] at hb
    -- preconditions of the master theorem
    have hperm := sortKeys_perm src.keys
    have hmemiff : ∀ k, k ∈ sortKeys src.keys ↔ k ∈ src.keys := fun k => hperm.mem_iff
    have hsort0 : List.Pairwise
        (fun x y => lexLt (x.drop 0) (y.drop 0) = true) (sortKeys src.keys) := by
      refine (sortKeys_pairwise_lexLt hnd).imp ?_
      intro x y h
      simpa using h
    have hbytes0 : ∀ k ∈ sortKeys src.keys, ∀ b ∈ k.drop 0, b < 256 := by
      intro k hk b hb
      exact hbytes k ((hmemiff k).mp hk) b (by simpa using hb)
    have BP := makeByteValue_spec src.get (1 + ((sortKeys src.keys).map List.length).sum)
      [defaultBV] 0 (sortKeys src.keys) 0 store' hb (by simp) hsort0 hbytes0
    have hagree : ∀ j, Region 0 ([defaultBV] : List (byteValue T)).length store'.length j →
        store'[j]? = store'[j]? := fun _ _ => rfl
    have hmono := BP.mono
    simp only [List.length_singleton] at hmono
    refine ⟨?_, ?_, ?_, ?_, hmono⟩
    · intro k hk
      have := BP.lookA store' hagree k ((hmemiff k).mpr hk)
      rw [List.drop_zero] at this
      exact this
    · intro q hq
      have := BP.lookB store' hagree q ?_
      · exact this
      · intro k hk
        rw [List.drop_zero]
        intro hcon
        subst hcon
        exact hq ((hmemiff k).mp hk)
    · intro i bv hj
      exact BP.nodeok initial_store_nodeok i bv hj
    · intro acc
      have hfuel : ∀ k ∈ sortKeys src.keys, k.length - 0 < store'.length := by
        intro k hk
        have := BP.grow k hk
        simp only [List.length_singleton] at this
        omega
      have := BP.enum store' hagree store'.length [] acc hfuel
      rw [Map.AppendSortedKeys]
      rw [this]
      congr 1
      congr 1
      have : ((sortKeys src.keys).map fun k => [] ++ k.drop 0) =
          (sortKeys src.keys).map id := by
        refine List.map_congr_left ?_
        intro x _
        simp
      rw [this, List.map_id]

@[simp] theorem byteValueSlice.next_mk {T : Type} (n : List (byteValueSlice T)) (o : Nat)
    (v : Bool) (w : T) : (⟨n, o, v, w⟩ : byteValueSlice T).next = n := rfl

@[simp] theorem byteValueSlice.mkNextOffset {T : Type} (n : List (byteValueSlice T)) (o : Nat)
    (v : Bool) (w : T) : (⟨n, o, v, w⟩ : byteValueSlice T).nextOffset = o := rfl

@[simp] theorem byteValueSlice.mkValid {T : Type} (n : List (byteValueSlice T)) (o : Nat)
    (v : Bool) (w : T) : (⟨n, o, v, w⟩ : byteValueSlice T).valid = v := rfl

@[simp] theorem byteValueSlice.mkValue {T : Type} (n : List (byteValueSlice T)) (o : Nat)
    (v : Bool) (w : T) : (⟨n, o, v, w⟩ : byteValueSlice T).value = w := rfl

theorem lookupFasterBytes_eq_string [Inhabited T] :
    ∀ (s : List Nat) (bv : byteValueSlice T), lookupFasterBytes bv s = lookupFasterString bv s := by
  intro s
  induction s with
  | nil => intro bv; rfl
  | cons b rest ih =>
    intro bv
    rw [lookupFasterBytes, lookupFasterString]
    by_cases h1 : b < bv.nextOffset
    · rw [if_pos h1, if_pos h1]
    · rw [if_neg h1, if_neg h1]
      by_cases h2 : bv.next.length ≤ b - bv.nextOffset
      · rw [dif_pos h2, dif_pos h2]
      · rw [dif_neg h2, dif_neg h2]
        exact ih _

theorem deriveNode_oob [Inhabited T] {store : List (byteValue T)} {i : Nat}
    (h : store[i]? = none) : ∀ f, deriveNode store f i = ⟨[], 0, false, default⟩ := by
  intro f
  cases f with
  | zero => rfl
  | succ f => rw [deriveNode, h]

/-- On well-formed stores the fuel of `deriveNode` is irrelevant as soon as it
covers the remaining index range. -/
theorem deriveNode_congr [Inhabited T] {store : List (byteValue T)} (hok : StoreOK store) :
    ∀ (gas i f f' : Nat), store.length ≤ i + gas → store.length ≤ i + f →
      store.length ≤ i + f' → deriveNode store f i = deriveNode store f' i := by
  intro gas
  induction gas with
  | zero =>
    intro i f f' hg _ _
    have hnone : store[i]? = none := List.getElem?_eq_none (by omega)
    rw [deriveNode_oob hnone, deriveNode_oob hnone]
  | succ gas ihg =>
    intro i f f' hg hf hf'
    by_cases hi : i < store.length
    · obtain ⟨fc, rfl⟩ : ∃ fc, f = fc + 1 := ⟨f - 1, by omega⟩
      obtain ⟨fc', rfl⟩ : ∃ fc', f' = fc' + 1 := ⟨f' - 1, by omega⟩
      rw [deriveNode, deriveNode]
      cases hbv : store[i]? with
      | none => rfl
      | some bv =>
        simp only []
        have hok' := hok i bv hbv
        have hmaps : (List.range bv.nextLen).map (fun j => deriveNode store fc (bv.nextLo + j)) =
            (List.range bv.nextLen).map (fun j => deriveNode store fc' (bv.nextLo + j)) := by
          refine List.map_congr_left ?_
          intro j hj
          rw [List.mem_range] at hj
          have hlt : i < bv.nextLo := hok'.2 (by omega)
          have hin : bv.nextLo + j < store.length := by have := hok'.1; omega
          exact ihg (bv.nextLo + j) fc fc' (by omega) (by omega) (by omega)
        rw [hmaps]
    · have hnone : store[i]? = none := List.getElem?_eq_none (by omega)
      rw [deriveNode_oob hnone, deriveNode_oob hnone]

/-- On well-formed stores the derived view looks up exactly like the flat
store. -/
theorem derive_lookupString [Inhabited T] {store : List (byteValue T)} (hok : StoreOK store) :
    ∀ (bs : List Nat) (i f : Nat), i < store.length → store.length ≤ i + f →
      lookupFasterString (deriveNode store f i) bs = lookupStringFrom store i bs := by
  intro bs
  induction bs with
  | nil =>
    intro i f hi hf
    obtain ⟨fc, rfl⟩ : ∃ fc, f = fc + 1 := ⟨f - 1, by omega⟩
    rw [deriveNode]
    cases hbv : store[i]? with
    | none =>
      have := List.getElem?_eq_none_iff.mp hbv
      omega
    | some bv =>
      simp only []
      rw [lookupFasterString, lookupStringFrom_nil hbv]
      simp
  | cons b rest ih =>
    intro i f hi hf
    obtain ⟨fc, rfl⟩ : ∃ fc, f = fc + 1 := ⟨f - 1, by omega⟩
    rw [deriveNode]
    cases hbv : store[i]? with
    | none =>
      have := List.getElem?_eq_none_iff.mp hbv
      omega
    | some bv =>
      simp only []
      rw [lookupFasterString, lookupStringFrom_cons hbv]
      simp only [byteValueSlice.next_mk, byteValueSlice.mkNextOffset, List.length_map,
        List.length_range]
      by_cases h1 : b < bv.nextOffset
      · rw [if_pos h1, if_pos h1]
      · rw [if_neg h1, if_neg h1]
        by_cases h2 : bv.nextLen ≤ b - bv.nextOffset
        · rw [dif_pos h2, if_pos h2]
        · rw [dif_neg h2, if_neg h2]
          have hok' := hok i bv hbv
          have hni : b - bv.nextOffset < bv.nextLen := by omega
          have hget : ∀ hpf : b - bv.nextOffset <
              ((List.range bv.nextLen).map (fun j => deriveNode store fc (bv.nextLo + j))).length,
              ((List.range bv.nextLen).map
                (fun j => deriveNode store fc (bv.nextLo + j))).get ⟨b - bv.nextOffset, hpf⟩ =
                deriveNode store fc (bv.nextLo + (b - bv.nextOffset)) := by
            intro hpf
            simp
          rw [hget]
          have hlt : i < bv.nextLo := hok'.2 (by omega)
          have hin : bv.nextLo + (b - bv.nextOffset) < store.length := by
            have := hok'.1
            omega
          exact ih (bv.nextLo + (b - bv.nextOffset)) fc hin (by omega)

theorem NewMapFaster_length [Inhabited T] (m : Map T) :
    (NewMapFaster m).store.length = m.store.length := by
  simp [NewMapFaster]

theorem NewMapFaster_getElem [Inhabited T] (m : Map T) {i : Nat} (hi : i < m.store.length) :
    (NewMapFaster m).store[i]? = some (deriveNode m.store m.store.length i) := by
  rw [NewMapFaster]
  simp only [List.getElem?_map, List.getElem?_range hi, Option.map_some']

/-- The derived array copies every per-index field and holds each child
reference as the sub-range of the derived array described by the flat node. -/
theorem NewMapFaster_fields [Inhabited T] (m : Map T) (hok : StoreOK m.store) :
    ∀ (i : Nat) (bv : byteValue T), m.store[i]? = some bv →
      ∃ dn : byteValueSlice T, (NewMapFaster m).store[i]? = some dn ∧
      dn.nextOffset = bv.nextOffset ∧ dn.valid = bv.valid ∧ dn.value = bv.value ∧
      dn.next = ((NewMapFaster m).store.drop bv.nextLo).take bv.nextLen := by
  intro i bv hbv
  have hi : i < m.store.length := getElem?_some_lt hbv
  have hok' := hok i bv hbv
  refine ⟨deriveNode m.store m.store.length i, NewMapFaster_getElem m hi, ?_⟩
  obtain ⟨fc, hfc⟩ : ∃ fc, m.store.length = fc + 1 := ⟨m.store.length - 1, by omega⟩
  have hunfold : deriveNode m.store m.store.length i =
      ⟨(List.range bv.nextLen).map (fun j => deriveNode m.store fc (bv.nextLo + j)),
        bv.nextOffset, bv.valid, bv.value⟩ := by
    rw [hfc, deriveNode, hbv]
  rw [hunfold]
  refine ⟨rfl, rfl, rfl, ?_⟩
  simp only [byteValueSlice.next_mk]
  refine List.ext_getElem? ?_
  intro j
  rw [List.getElem?_take]
  by_cases hj : j < bv.nextLen
  · rw [if_pos hj]
    have hjin : bv.nextLo + j < m.store.length := by
      have := hok'.1
      omega
    have hlo1 : 1 ≤ bv.nextLo := by
      have := hok'.2 (by omega)
      omega
    rw [List.getElem?_map, List.getElem?_range hj, Option.map_some']
    rw [List.getElem?_drop, NewMapFaster_getElem m hjin]
    have := deriveNode_congr hok m.store.length (bv.nextLo + j) fc m.store.length
      (by omega) (by omega) (by omega)
    rw [this]
  · rw [if_neg hj]
    rw [List.getElem?_map]
    rw [List.getElem?_eq_none (by simpa using hj)]
    rfl

/-- Both lookups of the derived view agree with the flat map on well-formed
nonempty stores. -/
theorem NewMapFaster_lookup [Inhabited T] (m : Map T) (hok : StoreOK m.store)
    (hne : 1 ≤ m.store.length) (q : List Nat) :
    (NewMapFaster m).LookupString q = m.LookupString q ∧
    (NewMapFaster m).LookupBytes q = m.LookupBytes q := by
  have h0 : (NewMapFaster m).store[0]? = some (deriveNode m.store m.store.length 0) :=
    NewMapFaster_getElem m (by omega)
  have hmain : lookupFasterString (deriveNode m.store m.store.length 0) q =
      lookupStringFrom m.store 0 q :=
    derive_lookupString hok q 0 m.store.length (by omega) (by omega)
  constructor
  · rw [MapFaster.LookupString, h0]
    exact hmain
  · rw [MapFaster.LookupBytes, h0]
    simp only []
    rw [lookupFasterBytes_eq_string, Map.LookupBytes, lookupBytesFrom_eq_string]
    exact hmain


/-! ### Unfolding equations for `groupRuns` and totality of lookup -/

theorem groupRuns_nil {d : Nat} : groupRuns d [] = [] := by rw [groupRuns]

theorem groupRuns_cons {d : Nat} {k : Key} {tl : List Key} :
    groupRuns d (k :: tl) =
      (k :: tl.takeWhile (fun x => x[d]? == k[d]?)) ::
        groupRuns d (tl.dropWhile (fun x => x[d]? == k[d]?)) := by rw [groupRuns]

theorem lookupStringFrom_isSome [Inhabited T] {store : List (byteValue T)}
    (hok : StoreOK store) :
    ∀ (s : List Nat) (i : Nat), i < store.length → (lookupStringFrom store i s).isSome := by
  intro s
  induction s with
  | nil =>
    intro i hi
    obtain ⟨bv, hbv⟩ : ∃ bv, store[i]? = some bv := by
      rw [List.getElem?_eq_getElem hi]; exact ⟨_, rfl⟩
    rw [lookupStringFrom_nil hbv]; rfl
  | cons b rest ih =>
    intro i hi
    obtain ⟨bv, hbv⟩ : ∃ bv, store[i]? = some bv := by
      rw [List.getElem?_eq_getElem hi]; exact ⟨_, rfl⟩
    rw [lookupStringFrom_cons hbv]
    by_cases h1 : b < bv.nextOffset
    · rw [if_pos h1]; rfl
    · rw [if_neg h1]
      by_cases h2 : bv.nextLen ≤ b - bv.nextOffset
      · rw [if_pos h2]; rfl
      · rw [if_neg h2]
        have := hok i bv hbv
        exact ih _ (by have h3 := this.1; omega)

/-! ### Concrete instances used by the witnesses -/

/-- A small source: the empty key, a key, and an extension of that key. -/
def srcW : Source Nat := ⟨[[97, 98], [97], []], fun k => k.length + 10⟩

/-- The map `NewMap` builds from `srcW` (computed by evaluation). -/
def mW : Map Nat := ⟨[⟨1, 1, 97, true, 10⟩, ⟨2, 1, 98, true, 11⟩, ⟨0, 0, 0, true, 12⟩]⟩

theorem NewMap_srcW : NewMap srcW = some mW := by
  simp [NewMap, srcW, sortKeys, List.insertionSort, List.orderedInsert, keyLe, lexLt,
    build, makeByteValue, buildRuns, groupRuns_cons, groupRuns_nil, nextLenOf, defaultBV, mW]

/-- A source with one two-byte key, so the built trie has interior
non-terminal nodes. -/
def srcP : Source Nat := ⟨[[97, 98]], fun k => k.length⟩

/-- The map `NewMap` builds from `srcP`. -/
def mP : Map Nat := ⟨[⟨1, 1, 97, false, 0⟩, ⟨2, 1, 98, false, 0⟩, ⟨0, 0, 0, true, 2⟩]⟩

theorem NewMap_srcP : NewMap srcP = some mP := by
  simp [NewMap, srcP, sortKeys, List.insertionSort, List.orderedInsert, keyLe, lexLt,
    build, makeByteValue, buildRuns, groupRuns_cons, groupRuns_nil, nextLenOf, defaultBV, mP]

/-- The source whose two keys make the root's next bytes span 0..255. -/
def srcSpan : Source Nat := ⟨[[0], [255]], fun _ => 0⟩

/-- The empty source. -/
def srcE : Source Nat := ⟨[], fun _ => 0⟩

/-- A one-block builder state with room for two more nodes. -/
def allW : List (BVBlock Nat) := [⟨[defaultBV], 4⟩]

theorem NewMap_srcSpan : NewMap srcSpan = none := by
  simp [NewMap, srcSpan, sortKeys, List.insertionSort, List.orderedInsert, keyLe, lexLt,
    build, makeByteValue, buildRuns, groupRuns_cons, groupRuns_nil, nextLenOf, defaultBV]


/-! ### The claims -/

/-- C1: Round-trip — every key the source enumerates, looked up on the map
built by `NewMap`, yields its source value paired with `true`.  This covers
keys that are proper prefixes of other stored keys and the empty key, since
terminality (`valid`) is a field independent of child presence. -/
theorem C1_roundtrip [Inhabited T] (src : Source T) (m : Map T)
    (hnd : src.keys.Nodup) (hbytes : ∀ k ∈ src.keys, ∀ b ∈ k, b < 256)
    (hm : NewMap src = some m) :
    ∀ k ∈ src.keys, m.LookupString k = some (src.get k, true) :=
  (NewMap_post src m hnd hbytes hm).lookA

theorem C1_roundtrip_witness :
    srcW.keys.Nodup ∧ (∀ k ∈ srcW.keys, ∀ b ∈ k, b < 256) ∧
    NewMap srcW = some mW ∧
    mW.LookupString [] = some (srcW.get [], true) ∧
    mW.LookupString [97] = some (srcW.get [97], true) ∧
    mW.LookupString [97, 98] = some (srcW.get [97, 98], true) :=
  ⟨by decide, by decide, NewMap_srcW,
   C1_roundtrip srcW mW (by decide) (by decide) NewMap_srcW [] (by decide),
   C1_roundtrip srcW mW (by decide) (by decide) NewMap_srcW [97] (by decide),
   C1_roundtrip srcW mW (by decide) (by decide) NewMap_srcW [97, 98] (by decide)⟩

/-- C2: Negative lookup — any query the source does not enumerate yields
`found = false` (with the zero value) on the map built by `NewMap`, whether
the byte walk short-circuits or ends at a non-terminal node. -/
theorem C2_negative_lookup [Inhabited T] (src : Source T) (m : Map T)
    (hnd : src.keys.Nodup) (hbytes : ∀ k ∈ src.keys, ∀ b ∈ k, b < 256)
    (hm : NewMap src = some m) :
    ∀ q : List Nat, q ∉ src.keys → m.LookupString q = some (default, false) :=
  (NewMap_post src m hnd hbytes hm).lookB

theorem C2_negative_lookup_witness :
    ([97] ∉ srcP.keys ∧ mP.LookupString [97] = some (default, false)) ∧
    ([98] ∉ srcP.keys ∧ mP.LookupString [98] = some (default, false)) ∧
    ([97, 98, 99] ∉ srcP.keys ∧
      mP.LookupString [97, 98, 99] = some (default, false)) :=
  ⟨⟨by decide, C2_negative_lookup srcP mP (by decide) (by decide) NewMap_srcP
      [97] (by decide)⟩,
   ⟨by decide, C2_negative_lookup srcP mP (by decide) (by decide) NewMap_srcP
      [98] (by decide)⟩,
   ⟨by decide, C2_negative_lookup srcP mP (by decide) (by decide) NewMap_srcP
      [97, 98, 99] (by decide)⟩⟩

/-- C3: Flat/derived equivalence — on any map built by `NewMap`, the derived
view produced by `NewMapFaster` answers every query (string or byte variant)
exactly as the flat map does; the derived array has the same length, each
entry copies `nextOffset`/`valid`/`value`, and its child list is the
sub-range of the derived array given by the flat node's `nextLo`/`nextLen`. -/
theorem C3_flat_derived_equiv [Inhabited T] (src : Source T) (m : Map T)
    (hnd : src.keys.Nodup) (hbytes : ∀ k ∈ src.keys, ∀ b ∈ k, b < 256)
    (hm : NewMap src = some m) :
    (∀ q : List Nat, (NewMapFaster m).LookupString q = m.LookupString q ∧
        (NewMapFaster m).LookupBytes q = m.LookupBytes q) ∧
    (NewMapFaster m).store.length = m.store.length ∧
    (∀ (i : Nat) (bv : byteValue T), m.store[i]? = some bv →
      ∃ dn : byteValueSlice T, (NewMapFaster m).store[i]? = some dn ∧
        dn.nextOffset = bv.nextOffset ∧ dn.valid = bv.valid ∧ dn.value = bv.value ∧
        dn.next = ((NewMapFaster m).store.drop bv.nextLo).take bv.nextLen) := by
  have P := NewMap_post src m hnd hbytes hm
  exact ⟨fun q => NewMapFaster_lookup m P.storeok P.nonempty q,
    NewMapFaster_length m, NewMapFaster_fields m P.storeok⟩

theorem C3_flat_derived_equiv_witness :
    ((NewMapFaster mW).LookupString [97] = mW.LookupString [97]) ∧
    ((NewMapFaster mW).LookupBytes [98, 99] = mW.LookupBytes [98, 99]) ∧
    (NewMapFaster mW).store.length = mW.store.length :=
  ⟨((C3_flat_derived_equiv srcW mW (by decide) (by decide) NewMap_srcW).1 [97]).1,
   ((C3_flat_derived_equiv srcW mW (by decide) (by decide) NewMap_srcW).1 [98, 99]).2,
   (C3_flat_derived_equiv srcW mW (by decide) (by decide) NewMap_srcW).2.1⟩

/-- C4 (amended): Byte-span representability holds only below the wrap-around
case: whenever the lowest and highest next-byte values `lo ≤ hi < 256` at a
node satisfy `hi - lo < 255`, the stored byte-sized `nextLen` equals the true
number of reserved slots `hi - lo + 1`.  (In the remaining case `lo = 0`,
`hi = 255` the count 256 wraps to 0 and construction fails; see the
counterexample.) -/
theorem C4_span_representable :
    ∀ lo hi : Nat, lo ≤ hi → hi < 256 → hi - lo < 255 →
      nextLenOf lo hi = hi - lo + 1 := by
  intro lo hi h1 h2 h3
  unfold nextLenOf
  omega

theorem C4_span_representable_witness : nextLenOf 97 98 = 2 :=
  C4_span_representable 97 98 (by decide) (by decide) (by decide)

/-- C4, counterexample to the original claim: with the two keys `[0]` and
`[255]` the root's next bytes span from 0 to 255, the slot count 256 is not
representable in the byte-sized `nextLen` (`nextLenOf 0 255 = 0`, not 256),
and construction does not build the structure correctly: the model of
`NewMap` returns `none` where the Go code panics with an index out of
range. -/
theorem C4_counterexample : nextLenOf 0 255 = 0 ∧ NewMap srcSpan = none :=
  ⟨by decide, NewMap_srcSpan⟩

/-- C5: Enumeration completeness and order — on any map built by `NewMap`,
the depth-first traversal `AppendSortedKeys` produces exactly the source's
keys, sorted byte-lexicographically: the output is `sortKeys src.keys`, a
permutation of the source's key list (hence no duplicates and no omissions)
that is strictly sorted under the Go string order `lexLt`. -/
theorem C5_enumeration [Inhabited T] (src : Source T) (m : Map T)
    (hnd : src.keys.Nodup) (hbytes : ∀ k ∈ src.keys, ∀ b ∈ k, b < 256)
    (hm : NewMap src = some m) :
    m.AppendSortedKeys [] = some (sortKeys src.keys) ∧
    (sortKeys src.keys).Perm src.keys ∧
    List.Pairwise (fun x y => lexLt x y = true) (sortKeys src.keys) := by
  have P := NewMap_post src m hnd hbytes hm
  refine ⟨?_, sortKeys_perm src.keys, sortKeys_pairwise_lexLt hnd⟩
  have h := P.enum []
  simpa using h

theorem C5_enumeration_witness :
    mW.AppendSortedKeys [] = some (sortKeys srcW.keys) ∧
    sortKeys srcW.keys = [[], [97], [97, 98]] :=
  ⟨(C5_enumeration srcW mW (by decide) (by decide) NewMap_srcW).1, by decide⟩

/-- C6: Child-index validity — in any map built by `NewMap`, every child slot
`nextLo + j` (`j < nextLen`) of every node is a valid index of the store;
consequently both lookup functions are total: they return `some` answer for
every query whatsoever (the model returns `none` exactly where the Go code
would index out of range). -/
theorem C6_child_index_valid [Inhabited T] (src : Source T) (m : Map T)
    (hnd : src.keys.Nodup) (hbytes : ∀ k ∈ src.keys, ∀ b ∈ k, b < 256)
    (hm : NewMap src = some m) :
    (∀ (i : Nat) (bv : byteValue T), m.store[i]? = some bv →
      ∀ j, j < bv.nextLen → bv.nextLo + j < m.store.length) ∧
    ∀ q : List Nat, (m.LookupString q).isSome ∧ (m.LookupBytes q).isSome := by
  have P := NewMap_post src m hnd hbytes hm
  constructor
  · intro i bv hbv j hj
    have h1 := (P.storeok i bv hbv).1
    omega
  · intro q
    have h1 : (lookupStringFrom m.store 0 q).isSome :=
      lookupStringFrom_isSome P.storeok q 0 (by have := P.nonempty; omega)
    refine ⟨h1, ?_⟩
    rw [Map.LookupBytes, lookupBytesFrom_eq_string]
    exact h1

theorem C6_child_index_valid_witness :
    (mW.LookupString [5, 6]).isSome ∧ (mW.LookupBytes [200]).isSome :=
  ⟨((C6_child_index_valid srcW mW (by decide) (by decide) NewMap_srcW).2 [5, 6]).1,
   ((C6_child_index_valid srcW mW (by decide) (by decide) NewMap_srcW).2 [200]).2⟩

/-- C7: Reservation-index stability — one step of the block allocator
`builderAlloc` keeps every index assigned so far: the flattened concatenation
of all blocks is extended in place by exactly the `n` freshly reserved
zero-valued slots, so the running length counter recorded as a node's
`nextLo` at reservation time (`len`) is the final position of the first
reserved slot, the counter advances to `len + n`, and every previously
assigned index still holds the same node in the flattened array. -/
theorem C7_alloc_stability [Inhabited T] (all all' : List (BVBlock T))
    (len n len' : Nat) (hlen : (flattenBlocks all).length = len)
    (h : builderAlloc all len n = some (all', len')) :
    len' = len + n ∧
    flattenBlocks all' = flattenBlocks all ++ List.replicate n defaultBV ∧
    (flattenBlocks all').length = len + n ∧
    ∀ j, j < len → (flattenBlocks all')[j]? = (flattenBlocks all)[j]? := by
  rw [builderAlloc] at h
  cases hl : all.getLast? with
  | none => rw [hl] at h; exact absurd h (by simp)
  | some cur =>
    rw [hl] at h
    simp only [] at h
    obtain ⟨pre, hpre⟩ := List.getLast?_eq_some_iff.mp hl
    have hflat : ∀ (xs : List (BVBlock T)) (b : BVBlock T),
        flattenBlocks (xs ++ [b]) = flattenBlocks xs ++ b.data := by
      intro xs b
      simp [flattenBlocks]
    have hmain : flattenBlocks all' = flattenBlocks all ++ List.replicate n defaultBV ∧
        len' = len + n := by
      by_cases hc : n ≤ cur.cap - cur.data.length
      · rw [if_pos hc] at h
        obtain ⟨ha, hn⟩ := Prod.mk.injEq .. ▸ Option.some_inj.mp h
        constructor
        · rw [← ha, hpre, List.dropLast_concat, hflat, hflat]
          simp [List.append_assoc]
        · omega
      · rw [if_neg hc] at h
        obtain ⟨ha, hn⟩ := Prod.mk.injEq .. ▸ Option.some_inj.mp h
        constructor
        · rw [← ha, hflat]
        · omega
    refine ⟨hmain.2, hmain.1, ?_, ?_⟩
    · rw [hmain.1]
      simp [hlen]
    · intro j hj
      rw [hmain.1]
      exact List.getElem?_append_left (by omega)

theorem C7_alloc_stability_witness :
    (flattenBlocks allW).length = 1 ∧
    builderAlloc allW 1 2 =
      some ([⟨[defaultBV, defaultBV, defaultBV], 4⟩], 3) ∧
    flattenBlocks [(⟨[defaultBV, defaultBV, defaultBV], 4⟩ : BVBlock Nat)] =
      flattenBlocks allW ++ List.replicate 2 defaultBV :=
  ⟨rfl, rfl,
   (C7_alloc_stability allW [⟨[defaultBV, defaultBV, defaultBV], 4⟩] 1 2 3 rfl rfl).2.1⟩


/-- C8: Empty source — `NewMap` on a source enumerating no keys succeeds and
yields the store holding exactly the one default root node, which is
non-terminal (`valid = false`) and has no children (`nextLen = 0`); every
lookup on that map returns `found = false` (with the zero value). -/
theorem C8_empty_source [Inhabited T] (src : Source T) (h : src.keys = []) :
    NewMap src = some ⟨[defaultBV]⟩ ∧
    (defaultBV : byteValue T).valid = false ∧
    (defaultBV : byteValue T).nextLen = 0 ∧
    ∀ q : List Nat,
      Map.LookupString (⟨[defaultBV]⟩ : Map T) q = some (default, false) := by
  refine ⟨by rw [NewMap, h], rfl, rfl, ?_⟩
  intro q
  exact lookupStringFrom_default (by simp) q

theorem C8_empty_source_witness :
    NewMap srcE = some ⟨[defaultBV]⟩ ∧
    Map.LookupString (⟨[defaultBV]⟩ : Map Nat) [97] = some (default, false) ∧
    Map.LookupString (⟨[defaultBV]⟩ : Map Nat) [] = some (default, false) :=
  ⟨(C8_empty_source srcE rfl).1,
   (C8_empty_source srcE rfl).2.2.2 [97],
   (C8_empty_source srcE rfl).2.2.2 []⟩

/-- C9: String/byte-sequence equivalence — on any flat map and any derived
map, looking up a byte sequence gives exactly the same answer as looking up
the string with those bytes: the two lookup loops are byte-for-byte the same
code, with no decoding or normalization. -/
theorem C9_string_bytes_equiv [Inhabited T] (m : Map T) (mf : MapFaster T)
    (q : List Nat) :
    m.LookupBytes q = m.LookupString q ∧ mf.LookupBytes q = mf.LookupString q := by
  constructor
  · rw [Map.LookupBytes, Map.LookupString, lookupBytesFrom_eq_string]
  · rw [MapFaster.LookupBytes, MapFaster.LookupString]
    cases mf.store[0]? with
    | none => rfl
    | some bv => simp only [lookupFasterBytes_eq_string]

theorem C9_string_bytes_equiv_witness :
    mW.LookupBytes [97, 98] = mW.LookupString [97, 98] ∧
    (NewMapFaster mW).LookupBytes [97] = (NewMapFaster mW).LookupString [97] :=
  ⟨(C9_string_bytes_equiv mW (NewMapFaster mW) [97, 98]).1,
   (C9_string_bytes_equiv mW (NewMapFaster mW) [97]).2⟩

/-- C10: Zero value on absence — on any map built by `NewMap`, whenever any
of the four lookups (string or byte variant, flat or derived view) answers
`found = false`, the value it returns is the zero value of the value type. -/
theorem C10_zero_on_absence [Inhabited T] (src : Source T) (m : Map T)
    (hnd : src.keys.Nodup) (hbytes : ∀ k ∈ src.keys, ∀ b ∈ k, b < 256)
    (hm : NewMap src = some m) :
    ∀ (q : List Nat) (v : T),
      (m.LookupString q = some (v, false) → v = default) ∧
      (m.LookupBytes q = some (v, false) → v = default) ∧
      ((NewMapFaster m).LookupString q = some (v, false) → v = default) ∧
      ((NewMapFaster m).LookupBytes q = some (v, false) → v = default) := by
  have P := NewMap_post src m hnd hbytes hm
  have key : ∀ (q : List Nat) (v : T), m.LookupString q = some (v, false) → v = default := by
    intro q v hv
    by_cases hq : q ∈ src.keys
    · have h1 := P.lookA q hq
      rw [hv] at h1
      simp at h1
    · have h1 := P.lookB q hq
      rw [hv] at h1
      have h2 := Option.some_inj.mp h1
      exact (Prod.mk.injEq .. ▸ h2).1
  intro q v
  have hfast := NewMapFaster_lookup m P.storeok P.nonempty q
  refine ⟨key q v, ?_, ?_, ?_⟩
  · intro hv
    rw [Map.LookupBytes, lookupBytesFrom_eq_string] at hv
    exact key q v hv
  · intro hv
    rw [hfast.1] at hv
    exact key q v hv
  · intro hv
    rw [hfast.2, Map.LookupBytes, lookupBytesFrom_eq_string] at hv
    exact key q v hv

theorem C10_zero_on_absence_witness :
    mP.LookupString [97] = some (0, false) ∧ (0 : Nat) = default :=
  ⟨by decide,
   ((C10_zero_on_absence srcP mP (by decide) (by decide) NewMap_srcP [97] 0).1
     (by decide))⟩

end FastStringMap
